import Mathlib

/-!
Verification of the uniquify/classify/LER pipeline of `gblearn/gb.py`
(`GrainBoundaryCollection.uniquify`, `._uniquify`, `._classify`,
`.LER`, and `GrainBoundary.__init__`).

Modelling conventions:
* Descriptor vectors are an abstract type `α`; the external similarity
  kernel `gblearn.soap.S` is a parameter `S : α → α → ℚ` (the spec's
  SimilarityKernel contract: symmetric, zero on the diagonal,
  non-negative, no upper bound).  Floating point numbers are modelled
  by `ℚ`.
* A representative identifier is a `(gbid, atom index)` pair; the seed
  uses the sentinel `("0", 0)` exactly as `U[('0', 0)] = self.seed`.
* `OrderedDict` catalogues become association lists in insertion
  order; dictionary mutation becomes explicit state passing.
* Python exceptions (the missing-seed `ValueError`, the `KeyError`
  raised by `result[None]` when `U0 = None`, the failing `assert` in
  `LER`) become `Except`/`Option` failure values.
-/

/-- Representative identifier: `(gbid, atom index)`, as the tuples
`(PID, VID)` used for the keys of `U` in `gb.py`. -/
abbrev RepId := String × Nat

/-- The sentinel key `('0', 0)` under which `uniquify` stores the seed. -/
def seedKey : RepId := ("0", 0)

/-- Errors raised by the pipeline: the `ValueError` of `uniquify` when
`self.seed is None`, the `KeyError` from `result[U0]` with `U0 = None`
in `_classify`, and the `assert N == len(self[gbid])` of `LER`. -/
inductive GBErr where
  | missingSeed : GBErr
  | keyErrorNone : GBErr
  | assertFail : GBErr
deriving DecidableEq, Repr

deriving instance DecidableEq for Except

/-! ## First pass: `_uniquify` (extraction of unique LAEs) -/

/-- The body of `_uniquify` for one grain boundary: for each row `Pv`
of `NP` (index `i` counting from `start`), scan the current catalogue
`uni`; if some entry has `S(Pv, uP) < eps` the row is skipped (the
`break` of the `for ... else`), otherwise `uni[(gbid, i)] = Pv` is
appended.  The early-exit `break` is the short-circuit `any`. -/
def uniquifyPassGo (S : α → α → ℚ) (eps : ℚ) (gbid : String) :
    Nat → List α → List (RepId × α) → List (RepId × α)
  | _, [], uni => uni
  | i, v :: vs, uni =>
      uniquifyPassGo S eps gbid (i + 1) vs
        (if uni.any (fun u => decide (S v u.2 < eps)) then uni
         else uni ++ [((gbid, i), v)])

/-- `_uniquify(NP, gbid, uni, eps)`: one full pass over a GB's rows. -/
def uniquifyPass (S : α → α → ℚ) (eps : ℚ) (gbid : String)
    (NP : List α) (uni : List (RepId × α)) : List (RepId × α) :=
  uniquifyPassGo S eps gbid 0 NP uni

/-- The extraction loop of `uniquify`: `for gbid in self.gbfiles:
self._uniquify(NP, gbid, U, eps)`, threading the catalogue. -/
def extractGo (S : α → α → ℚ) (eps : ℚ) :
    List (String × List α) → List (RepId × α) → List (RepId × α)
  | [], uni => uni
  | (g, NP) :: rest, uni => extractGo S eps rest (uniquifyPass S eps g NP uni)

/-- The catalogue built by the first pass of `uniquify`, starting from
`U = OrderedDict(); U[('0', 0)] = self.seed`. -/
def extractAll (S : α → α → ℚ) (eps : ℚ) (seed : α)
    (samples : List (String × List α)) : List (RepId × α) :=
  extractGo S eps samples [(seedKey, seed)]

/-! ## Second pass: `_classify` -/

/-- The inner scan of `_classify` over the catalogue for one row `Pv`:
state `(K0, U0)` starts at `(1.0, None)` and is updated to `(K, u)`
whenever `K < eps` and `K < K0`. -/
def bestGo (S : α → α → ℚ) (eps : ℚ) (v : α) :
    List (RepId × α) → ℚ × Option RepId → ℚ × Option RepId
  | [], st => st
  | e :: rest, st =>
      bestGo S eps v rest
        (if S v e.2 < eps ∧ S v e.2 < st.1 then (S v e.2, some e.1) else st)

/-- The `(K0, U0)` value after scanning the whole catalogue,
from the initialisation `K0 = 1.0; U0 = None`. -/
def bestMatch (S : α → α → ℚ) (eps : ℚ) (v : α)
    (uni : List (RepId × α)) : ℚ × Option RepId :=
  bestGo S eps v uni (1, none)

/-- The per-row outcome of `_classify`: `none` models the `KeyError`
of `result[U0]` when `K0 < eps` but `U0` is still `None`;
`some none` is the unclassifiable-warning branch; `some (some u)`
means the row is appended to `result[u]` and `used[u] = True`. -/
def classifyAtom (S : α → α → ℚ) (eps : ℚ) (v : α)
    (uni : List (RepId × α)) : Option (Option RepId) :=
  match bestMatch S eps v uni with
  | (K0, U0) =>
      if K0 < eps then
        match U0 with
        | some u => some (some u)
        | none => none
      else some none

/-- `if u not in result: result[u] = [u]`, performed for every
catalogue key in catalogue order while a row is scanned. -/
def ensureKeys (result : List (RepId × List RepId))
    (uni : List (RepId × α)) : List (RepId × List RepId) :=
  uni.foldl
    (fun r e => if r.any (fun p => decide (p.1 = e.1)) then r else r ++ [(e.1, [e.1])])
    result

/-- `result[u].append(x)`. -/
def appendTo (result : List (RepId × List RepId)) (u x : RepId) :
    List (RepId × List RepId) :=
  result.map (fun p => if p.1 = u then (p.1, p.2 ++ [x]) else p)

/-- State of `_classify` for one GB: the `result` dict, the shared
`used` flags (as the list of keys set to `True`), and the warnings
emitted by the unclassifiable branch. -/
abbrev ClassifyState := List (RepId × List RepId) × List RepId × List RepId

instance : DecidableEq (List (RepId × List RepId)) := inferInstance

instance : DecidableEq (String × List (RepId × List RepId)) := inferInstance

instance : DecidableEq (List (String × List (RepId × List RepId))) := inferInstance

instance : DecidableEq (List (String × List (RepId × List RepId)) × List RepId × List RepId) :=
  inferInstance

/-- The row loop of `_classify(NP, PID, uni, eps, used)`: rows indexed
from `i`; aborts (`none`) if the `result[None]` `KeyError` fires. -/
def classifyGo (S : α → α → ℚ) (eps : ℚ) (PID : String)
    (uni : List (RepId × α)) :
    Nat → List α → ClassifyState → Option ClassifyState
  | _, [], st => some st
  | i, v :: vs, (res, used, warns) =>
      let res1 := ensureKeys res uni
      match classifyAtom S eps v uni with
      | none => none
      | some none => classifyGo S eps PID uni (i + 1) vs (res1, used, warns ++ [(PID, i)])
      | some (some u) =>
          classifyGo S eps PID uni (i + 1) vs (appendTo res1 u (PID, i), u :: used, warns)

/-- `_classify` for one GB, starting from `result = {}`. -/
def classifyGB (S : α → α → ℚ) (eps : ℚ) (PID : String)
    (NP : List α) (uni : List (RepId × α)) (used : List RepId) :
    Option ClassifyState :=
  classifyGo S eps PID uni 0 NP ([], used, [])

/-- The classification loop of `uniquify` over all GBs, collecting
`result["GBs"][gbid] = LAEs` and threading `used`. -/
def classifyAll (S : α → α → ℚ) (eps : ℚ) (uni : List (RepId × α)) :
    List (String × List α) → List RepId →
    Option (List (String × List (RepId × List RepId)) × List RepId × List RepId)
  | [], used => some ([], used, [])
  | (g, NP) :: rest, used =>
      match classifyGB S eps g NP uni used with
      | none => none
      | some (res, used', warns) =>
          match classifyAll S eps uni rest used' with
          | none => none
          | some (gbs, usedF, warnsF) => some ((g, res) :: gbs, usedF, warns ++ warnsF)

/-! ## Pruning and final ordering -/

/-- `for k, v in used.items(): if not v: del U[k]` — keep exactly the
entries whose key was recorded as used, preserving catalogue order. -/
def pruneU (U : List (RepId × α)) (used : List RepId) : List (RepId × α) :=
  U.filter (fun e => decide (e.1 ∈ used))

/-- The sort key `K = {u: S(v, self.seed) for u, v in U.items()}`. -/
def scoreTo (S : α → α → ℚ) (seed : α) (e : RepId × α) : ℚ :=
  S e.2 seed

/-- Descending insertion: the new element goes after every element
with an equal or larger key. -/
def insDesc (f : β → ℚ) (x : β) : List β → List β
  | [] => [x]
  | y :: ys => if f y < f x then x :: y :: ys else y :: insDesc f x ys

/-- A sort, descending by `f`, modelling
`sorted(K.items(), key=itemgetter(1), reverse=True)`.  `K` is a plain
Python 2 dict, so `K.items()` presents the entries in hash-table
order, not in catalogue insertion order; this model fixes one
admissible input order (the insertion order of the pruned catalogue),
and only consequences that are invariant under the relative order of
equal-score entries are asserted about the result. -/
def sortDesc (f : β → ℚ) (l : List β) : List β :=
  l.foldl (fun acc x => insDesc f x acc) []

/-! ## `uniquify` assembled -/

/-- The result dict of `uniquify`: the finalized catalogue `U`, the
per-GB classification `GBs`, and the accumulated warnings. -/
structure URes (α : Type) where
  U : List (RepId × α)
  GBs : List (String × List (RepId × List RepId))
  warns : List RepId
deriving DecidableEq, Repr

/-- Both classification passes run against the extracted catalogue. -/
def runClassify (S : α → α → ℚ) (eps : ℚ) (seed : α)
    (samples : List (String × List α)) :
    Option (List (String × List (RepId × List RepId)) × List RepId × List RepId) :=
  classifyAll S eps (extractAll S eps seed samples) samples []

/-- `GrainBoundaryCollection.uniquify(eps)`.  Raises `ValueError` if
no seed is configured; otherwise extracts, classifies, prunes unused
entries and orders the survivors by `S(v, seed)` descending. -/
def uniquify (S : α → α → ℚ) (seed? : Option α)
    (samples : List (String × List α)) (eps : ℚ) : Except GBErr (URes α) :=
  match seed? with
  | none => .error .missingSeed
  | some seed =>
      match runClassify S eps seed samples with
      | none => .error .keyErrorNone
      | some (gbs, used, warns) =>
          .ok ⟨sortDesc (scoreTo S seed) (pruneU (extractAll S eps seed samples) used),
               gbs, warns⟩

/-! ## LAE assignment and LER -/

/-- The assignment loop of `U(eps)`: `for u, elist in LAEs.items():
for PID, VID in elist[1:]: self[gbid].LAEs[VID] = u`, starting from
the `[(None, None)] * len` initialisation done by `trim`. -/
def assignLAEs (n : Nat) (m : List (RepId × List RepId)) : List (Option RepId) :=
  m.foldl
    (fun laes e => (e.2.drop 1).foldl (fun l pv => l.set pv.2 (some e.1)) laes)
    (List.replicate n none)

/-- One row of counts: `result[gbi, ui] = self[gbid].LAEs.count(uid)`
for each `uid` in finalized catalogue order. -/
def LERrow (laes : List (Option RepId)) (keys : List RepId) : List ℚ :=
  keys.map (fun u => ((laes.count (some u) : Nat) : ℚ))

/-- The per-GB loop of `LER`: build the count row, check the
`assert N == len(self[gbid])` invariant, then normalize by `N`. -/
def lerRows (keys : List RepId)
    (GBs : List (String × List (RepId × List RepId))) :
    List (String × List α) → Except GBErr (List (List ℚ))
  | [] => .ok []
  | (g, NP) :: rest =>
      let laes := assignLAEs NP.length ((GBs.lookup g).getD [])
      let row := LERrow laes keys
      if row.sum = (NP.length : ℚ) then
        match lerRows keys GBs rest with
        | .ok rows => .ok (row.map (· / row.sum) :: rows)
        | .error e => .error e
      else .error .assertFail

/-- `GrainBoundaryCollection.LER(eps)` (the uncached computation). -/
def LER (S : α → α → ℚ) (seed? : Option α)
    (samples : List (String × List α)) (eps : ℚ) : Except GBErr (List (List ℚ)) :=
  match uniquify S seed? samples eps with
  | .error e => .error e
  | .ok res => lerRows (res.U.map Prod.fst) res.GBs samples

/-! ## The collection, and seed-independent operations (`ASR`) -/

/-- The parts of `GrainBoundaryCollection` state the pipeline reads:
the optional seed vector and the ordered map of SOAP matrices. -/
structure GBCol (α : Type) where
  seed : Option α
  samples : List (String × List α)

/-- `uniquify` as invoked on a collection. -/
def uniquifyCol (S : α → α → ℚ) (c : GBCol α) (eps : ℚ) : Except GBErr (URes α) :=
  uniquify S c.seed c.samples eps

/-- `np.sum(Pi, axis=0)`: componentwise sum of the rows of a matrix. -/
def vecSum : List (List ℚ) → List ℚ
  | [] => []
  | r :: rs => rs.foldl (fun acc row => List.zipWith (· + ·) acc row) r

/-- `GrainBoundaryCollection.ASR`: one summed SOAP row per GB.  It
never reads the seed. -/
def ASRcol (c : GBCol (List ℚ)) : List (List ℚ) :=
  c.samples.map (fun g => vecSum g.2)

/-! ## `GrainBoundary.__init__` selectargs handling -/

/-- Error raised by the `GrainBoundary` constructor: with the default
`selectargs=None`, the unconditional `"padding" in self.selectargs`
membership test raises a `TypeError`. -/
inductive GBInitErr where
  | selectargsNone : GBInitErr
deriving DecidableEq, Repr

/-- The `selectargs` handling of `GrainBoundary.__init__`:
`self.selectargs = selectargs`, then `if "padding" in self.selectargs:
self.selectargs["padding"] /= 2`. -/
def initSelectargs (selectargs : Option (List (String × ℚ))) :
    Except GBInitErr (List (String × ℚ)) :=
  match selectargs with
  | none => .error .selectargsNone
  | some m =>
      .ok (if (m.lookup "padding").isSome then
             m.map (fun kv => if kv.1 = "padding" then (kv.1, kv.2 / 2) else kv)
           else m)

/-! ## Spec-side definitions (for refinement comparisons) -/

/-- Atoms of one GB labelled with their representative identifiers. -/
def atomsOf (g : String) : Nat → List α → List (RepId × α)
  | _, [] => []
  | i, v :: vs => ((g, i), v) :: atomsOf g (i + 1) vs

/-- All atoms of the collection, samples in collection order and rows
in index order. -/
def allAtoms : List (String × List α) → List (RepId × α)
  | [] => []
  | (g, NP) :: rest => atomsOf g 0 NP ++ allAtoms rest

/-- Modelled from the spec's words for the extraction pass (claim C2):
starting from the seed entry, insert an atom if and only if its
dissimilarity to every currently present catalogue entry is `≥ eps`. -/
def extractSpec (S : α → α → ℚ) (eps : ℚ) (seed : α)
    (atoms : List (RepId × α)) : List (RepId × α) :=
  atoms.foldl
    (fun cat kv => if cat.all (fun u => decide (eps ≤ S kv.2 u.2)) then cat ++ [kv] else cat)
    [(seedKey, seed)]

/-- Modelled from the spec's words for classification (claim C1): the
entry with the globally minimum dissimilarity, ties broken by the
first entry encountered in catalogue iteration order. -/
def nearestGo (S : α → α → ℚ) (v : α) :
    List (RepId × α) → Option (RepId × ℚ) → Option (RepId × ℚ)
  | [], best => best
  | e :: rest, best =>
      nearestGo S v rest
        (match best with
         | none => some (e.1, S v e.2)
         | some (u0, K0) => if S v e.2 < K0 then some (e.1, S v e.2) else some (u0, K0))

/-- The nearest catalogue entry and its dissimilarity. -/
def nearestEntry (S : α → α → ℚ) (v : α) (uni : List (RepId × α)) :
    Option (RepId × ℚ) :=
  nearestGo S v uni none

/-! ## Concrete kernels for counterexamples -/

/-- A symmetric table kernel on four points (0 = seed): zero on the
diagonal, non-negative, satisfying the SimilarityKernel contract. -/
def ceKernel (a b : Nat) : ℚ :=
  if a = b then 0 else
  match min a b, max a b with
  | 0, 1 => mkRat 7 10
  | 0, 2 => mkRat 19 20
  | 0, 3 => mkRat 19 20
  | 1, 2 => mkRat 1 10
  | 1, 3 => mkRat 1 20
  | 2, 3 => mkRat 19 20
  | _, _ => 1

/-- A two-valued kernel: distinct points are at dissimilarity `3/2`. -/
def farKernel (a b : Nat) : ℚ :=
  if a = b then 0 else mkRat 3 2

/-- A two-valued kernel: distinct points are at dissimilarity `3`. -/
def veryFarKernel (a b : Nat) : ℚ :=
  if a = b then 0 else 3

/-- A Boolean-indexed kernel: distinct points at dissimilarity `1`. -/
def boolKernel (a b : Bool) : ℚ :=
  if a = b then 0 else 1

/-- A three-point kernel giving two surviving entries with distinct
seed scores: `S(0,1) = 3/10`, `S(0,2) = 7/10`, `S(1,2) = 9/10`. -/
def orderKernel (a b : Nat) : ℚ :=
  if a = b then 0 else
  match min a b, max a b with
  | 0, 1 => mkRat 3 10
  | 0, 2 => mkRat 7 10
  | 1, 2 => mkRat 9 10
  | _, _ => 1

/-- Extract the finalized catalogue keys from a pipeline result. -/
def catKeys : Except GBErr (URes α) → Option (List RepId)
  | .ok res => some (res.U.map Prod.fst)
  | .error _ => none

/-- Extract the finalized catalogue entries from a pipeline result. -/
def catEntries : Except GBErr (URes α) → Option (List (RepId × α))
  | .ok res => some res.U
  | .error _ => none

/-- Extract the error of a failed pipeline run. -/
def pipelineErr : Except GBErr (URes α) → Option GBErr
  | .ok _ => none
  | .error e => some e

/-- Extract the number of surviving catalogue entries. -/
def catSize (r : Except GBErr (URes α)) : Option Nat :=
  (catKeys r).map List.length

/-- Membership of `x` in the tail (`elist[1:]`) of `result[u]`:
`x` was appended to the equivalence list of the catalogue entry `u`
during classification. -/
def tailMem (res : List (RepId × List RepId)) (u x : RepId) : Prop :=
  ∃ l, (u, l) ∈ res ∧ x ∈ l.drop 1

/-- `v` has some catalogue entry at dissimilarity below `eps`. -/
def covered (S : α → α → ℚ) (eps : ℚ) (uni : List (RepId × α)) (v : α) : Prop :=
  ∃ u ∈ uni, S v u.2 < eps

/-- The `(K0, U0)` scan state corresponding to a tracked nearest
entry, for relating `bestGo` to the spec-side `nearestGo` when the
threshold does not exceed the `1.0` initialisation of `K0`. -/
def stOf (eps : ℚ) : Option (RepId × ℚ) → ℚ × Option RepId
  | none => (1, none)
  | some (u, K) => if K < eps then (K, some u) else (1, none)

/-!
# Theorems
-/

/-- `decide (x < y)` is the negation of `decide (y ≤ x)` on `ℚ`. -/
theorem decide_lt_eq_not_decide_le (x y : ℚ) :
    decide (x < y) = !decide (y ≤ x) := by
  rcases lt_or_ge x y with h | h
  · simp [h, not_le.mpr h]
  · simp [not_lt.mpr h, h]

/-- The early-exit scan of `_uniquify` ("is some entry within `eps`?")
is the negation of the spec's "is every entry at distance `≥ eps`?". -/
theorem any_lt_eq_not_all_le (S : α → α → ℚ) (eps : ℚ) (v : α)
    (uni : List (RepId × α)) :
    uni.any (fun u => decide (S v u.2 < eps)) =
      !uni.all (fun u => decide (eps ≤ S v u.2)) := by
  induction uni with
  | nil => rfl
  | cons e t ih =>
      simp only [List.any_cons, List.all_cons, ih, Bool.not_and]
      rw [decide_lt_eq_not_decide_le]

/-- `_uniquify` only ever appends to the catalogue. -/
theorem uniquifyPassGo_append (S : α → α → ℚ) (eps : ℚ) (g : String) :
    ∀ (NP : List α) (i : Nat) (uni : List (RepId × α)),
    ∃ ext, uniquifyPassGo S eps g i NP uni = uni ++ ext
  | [], _, uni => ⟨[], by simp [uniquifyPassGo]⟩
  | v :: vs, i, uni => by
      simp only [uniquifyPassGo]
      by_cases h : uni.any (fun u => decide (S v u.2 < eps)) = true
      · obtain ⟨ext, hext⟩ := uniquifyPassGo_append S eps g vs (i + 1) uni
        exact ⟨ext, by rw [if_pos h]; exact hext⟩
      · obtain ⟨ext, hext⟩ :=
          uniquifyPassGo_append S eps g vs (i + 1) (uni ++ [((g, i), v)])
        exact ⟨((g, i), v) :: ext, by
          rw [if_neg h, hext, List.append_assoc]; rfl⟩

/-- The extraction loop over all samples only ever appends. -/
theorem extractGo_append (S : α → α → ℚ) (eps : ℚ) :
    ∀ (samples : List (String × List α)) (uni : List (RepId × α)),
    ∃ ext, extractGo S eps samples uni = uni ++ ext
  | [], uni => ⟨[], by simp [extractGo]⟩
  | (g, NP) :: rest, uni => by
      obtain ⟨e1, h1⟩ := uniquifyPassGo_append S eps g NP 0 uni
      obtain ⟨e2, h2⟩ := extractGo_append S eps rest (uniquifyPass S eps g NP uni)
      refine ⟨e1 ++ e2, ?_⟩
      show extractGo S eps rest (uniquifyPass S eps g NP uni) = uni ++ (e1 ++ e2)
      rw [h2, uniquifyPass, h1, List.append_assoc]

/-- `_uniquify` over one GB is the spec's fold over that GB's
identifier-labelled atoms. -/
theorem uniquifyPassGo_eq_foldl (S : α → α → ℚ) (eps : ℚ) (g : String) :
    ∀ (NP : List α) (i : Nat) (uni : List (RepId × α)),
    uniquifyPassGo S eps g i NP uni =
      (atomsOf g i NP).foldl
        (fun cat kv =>
          if cat.all (fun u => decide (eps ≤ S kv.2 u.2)) then cat ++ [kv] else cat)
        uni
  | [], _, uni => rfl
  | v :: vs, i, uni => by
      simp only [uniquifyPassGo, atomsOf, List.foldl_cons]
      rw [uniquifyPassGo_eq_foldl S eps g vs (i + 1)]
      congr 1
      rw [any_lt_eq_not_all_le]
      by_cases h : uni.all (fun u => decide (eps ≤ S v u.2)) = true
      · simp [h]
      · simp [Bool.eq_false_iff.mpr h]

/-- The full extraction loop is the spec's fold over all atoms. -/
theorem extractGo_eq_foldl (S : α → α → ℚ) (eps : ℚ) :
    ∀ (samples : List (String × List α)) (uni : List (RepId × α)),
    extractGo S eps samples uni =
      (allAtoms samples).foldl
        (fun cat kv =>
          if cat.all (fun u => decide (eps ≤ S kv.2 u.2)) then cat ++ [kv] else cat)
        uni
  | [], _ => rfl
  | (g, NP) :: rest, uni => by
      simp only [extractGo, allAtoms, List.foldl_append, uniquifyPass]
      rw [extractGo_eq_foldl S eps rest, uniquifyPassGo_eq_foldl S eps g NP 0 uni]

/-- C2: extraction initializes the catalogue with exactly the seed
entry under the sentinel identifier and equals the spec's fold over
samples in collection order and atoms in index order, inserting an
atom iff its dissimilarity to every currently present entry is
`≥ eps`; nothing is ever removed (the catalogue only grows by
appending, so catalogue order is insertion order). -/
theorem C2_extraction (S : α → α → ℚ) (eps : ℚ) (seed : α)
    (samples : List (String × List α)) :
    extractAll S eps seed samples = extractSpec S eps seed (allAtoms samples) ∧
    (∀ (g : String) (NP : List α) (uni : List (RepId × α)),
      ∃ ext, uniquifyPass S eps g NP uni = uni ++ ext) ∧
    (∃ ext, extractAll S eps seed samples = (seedKey, seed) :: ext) := by
  refine ⟨?_, fun g NP uni => uniquifyPassGo_append S eps g NP 0 uni, ?_⟩
  · rw [extractAll, extractSpec, extractGo_eq_foldl]
  · obtain ⟨ext, hext⟩ := extractGo_append S eps samples [(seedKey, seed)]
    exact ⟨ext, by rw [extractAll, hext]; rfl⟩

/-- Stable descending insertion produces a permutation. -/
theorem insDesc_perm (f : β → ℚ) (x : β) :
    ∀ l : List β, List.Perm (insDesc f x l) (x :: l)
  | [] => List.Perm.refl _
  | y :: ys => by
      rw [insDesc]
      by_cases h : f y < f x
      · rw [if_pos h]
      · rw [if_neg h]
        exact ((insDesc_perm f x ys).cons y).trans (List.Perm.swap x y ys)

/-- The stable descending sort is a permutation of its input. -/
theorem sortDesc_perm_aux (f : β → ℚ) :
    ∀ (l acc : List β), List.Perm (l.foldl (fun a x => insDesc f x a) acc) (l ++ acc)
  | [], acc => by simp
  | x :: t, acc => by
      simp only [List.foldl_cons]
      exact (sortDesc_perm_aux f t (insDesc f x acc)).trans
        ((List.Perm.append_left t (insDesc_perm f x acc)).trans List.perm_middle)

theorem sortDesc_perm (f : β → ℚ) (l : List β) : List.Perm (sortDesc f l) l := by
  simpa using sortDesc_perm_aux f l []

/-- Inserting into a descending-sorted list keeps it sorted. -/
theorem insDesc_pairwise (f : β → ℚ) (x : β) :
    ∀ l : List β, l.Pairwise (fun a b => f b ≤ f a) →
    (insDesc f x l).Pairwise (fun a b => f b ≤ f a)
  | [], _ => List.pairwise_singleton _ x
  | y :: ys, hp => by
      rw [insDesc]
      obtain ⟨hy, hys⟩ := List.pairwise_cons.mp hp
      by_cases h : f y < f x
      · rw [if_pos h]
        refine List.pairwise_cons.mpr ⟨?_, hp⟩
        intro z hz
        rcases List.mem_cons.mp hz with rfl | hz
        · exact le_of_lt h
        · exact le_trans (hy z hz) (le_of_lt h)
      · rw [if_neg h]
        refine List.pairwise_cons.mpr ⟨?_, insDesc_pairwise f x ys hys⟩
        intro z hz
        have hz' := (insDesc_perm f x ys).mem_iff.mp hz
        rcases List.mem_cons.mp hz' with rfl | hz'
        · exact not_lt.mp h
        · exact hy z hz'

/-- The stable descending sort is descending-sorted. -/
theorem sortDesc_pairwise_aux (f : β → ℚ) :
    ∀ (l acc : List β), acc.Pairwise (fun a b => f b ≤ f a) →
    (l.foldl (fun a x => insDesc f x a) acc).Pairwise (fun a b => f b ≤ f a)
  | [], _, hacc => hacc
  | x :: t, acc, hacc => by
      simp only [List.foldl_cons]
      exact sortDesc_pairwise_aux f t (insDesc f x acc) (insDesc_pairwise f x acc hacc)

theorem sortDesc_pairwise (f : β → ℚ) (l : List β) :
    (sortDesc f l).Pairwise (fun a b => f b ≤ f a) :=
  sortDesc_pairwise_aux f l [] (List.Pairwise.nil)

/-- C3 (amended): the finalized catalogue returned by `uniquify` is
the pruned catalogue reordered *descending* by kernel score to the
seed — so its first entry has the *largest* dissimilarity to the seed
(the least seed-similar entry comes first, not the most similar one).
The relative order of entries with equal scores is left unspecified:
the source sorts the items of a plain Python 2 dict `K`, which
iterate in hash-table order, so only order-of-ties-invariant
consequences (the descending pairwise order and the multiset of
entries) are asserted. -/
theorem C3_final_order (S : α → α → ℚ) (eps : ℚ) (seed : α)
    (samples : List (String × List α))
    (gbs : List (String × List (RepId × List RepId)))
    (used warns : List RepId) (res : URes α)
    (hrun : runClassify S eps seed samples = some (gbs, used, warns))
    (huni : uniquify S (some seed) samples eps = .ok res) :
    res.U.Pairwise (fun a b => scoreTo S seed b ≤ scoreTo S seed a) ∧
    List.Perm res.U (pruneU (extractAll S eps seed samples) used) := by
  have hres : res.U = sortDesc (scoreTo S seed)
      (pruneU (extractAll S eps seed samples) used) := by
    rw [uniquify, hrun] at huni
    injection huni with huni
    rw [← huni]
  rw [hres]
  exact ⟨sortDesc_pairwise _ _, sortDesc_perm _ _⟩

/-- Witness for C3 on the `orderKernel` collection: the finalized
catalogue `[ ("A",1) ↦ 2, ("A",0) ↦ 1 ]` is descending-sorted by seed
score and a permutation of the pruned catalogue. -/
theorem C3_final_order_witness :
    ([(("A", 1), 2), (("A", 0), 1)] : List (RepId × ℕ)).Pairwise
      (fun a b => scoreTo orderKernel 0 b ≤ scoreTo orderKernel 0 a) ∧
    List.Perm ([(("A", 1), 2), (("A", 0), 1)] : List (RepId × ℕ))
      (pruneU (extractAll orderKernel (mkRat 1 4) 0 [("A", [1, 2])]) [("A", 1), ("A", 0)]) := by
  have hrun : runClassify orderKernel (mkRat 1 4) 0 [("A", [1, 2])] =
      some ([("A", [(seedKey, [seedKey]), (("A", 0), [("A", 0), ("A", 0)]),
                    (("A", 1), [("A", 1), ("A", 1)])])],
            [("A", 1), ("A", 0)], []) := by decide
  have huni : uniquify orderKernel (some 0) [("A", [1, 2])] (mkRat 1 4) =
      .ok ⟨[(("A", 1), 2), (("A", 0), 1)],
           [("A", [(seedKey, [seedKey]), (("A", 0), [("A", 0), ("A", 0)]),
                   (("A", 1), [("A", 1), ("A", 1)])])], []⟩ := by decide
  exact C3_final_order orderKernel (mkRat 1 4) 0 [("A", [1, 2])] _ _ _ _ hrun huni

/-- Dividing every element of a list by `c` divides its sum by `c`. -/
theorem sum_map_div (l : List ℚ) (c : ℚ) :
    (l.map (· / c)).sum = l.sum / c := by
  induction l with
  | nil => simp
  | cons x t ih => simp [ih, add_div]

/-- Every count row has one column per catalogue key. -/
theorem LERrow_length (laes : List (Option RepId)) (keys : List RepId) :
    (LERrow laes keys).length = keys.length :=
  List.length_map keys _

/-- Count rows are componentwise non-negative. -/
theorem LERrow_nonneg (laes : List (Option RepId)) (keys : List RepId) :
    ∀ x ∈ LERrow laes keys, 0 ≤ x := by
  intro x hx
  obtain ⟨u, _, rfl⟩ := List.mem_map.mp hx
  exact Nat.cast_nonneg _

/-- Characterisation of a successful `lerRows` computation: one row
per sample, one column per catalogue key, and every row belonging to a
sample with at least one atom is normalized (sums to `1`) with
non-negative entries. -/
theorem lerRows_ok_props (keys : List RepId)
    (GBs : List (String × List (RepId × List RepId))) :
    ∀ (samples : List (String × List α)) (M : List (List ℚ)),
    lerRows keys GBs samples = .ok M →
    M.length = samples.length ∧
    (∀ row ∈ M, row.length = keys.length) ∧
    (∀ (i : Nat) (hi : i < samples.length), 0 < (samples.get ⟨i, hi⟩).2.length →
      ∃ row, M.get? i = some row ∧ row.sum = 1 ∧ ∀ x ∈ row, 0 ≤ x)
  | [], M, h => by
      simp only [lerRows] at h
      injection h with h
      subst h
      refine ⟨rfl, by simp, fun i hi => absurd hi (by simp)⟩
  | (g, NP) :: rest, M, h => by
      simp only [lerRows] at h
      by_cases hc :
          (LERrow (assignLAEs NP.length ((GBs.lookup g).getD [])) keys).sum
            = (NP.length : ℚ)
      · rw [if_pos hc] at h
        cases hrest : lerRows (α := α) keys GBs rest with
        | error e => rw [hrest] at h; cases h
        | ok rows =>
            rw [hrest] at h
            injection h with h
            subst h
            obtain ⟨ih1, ih2, ih3⟩ := lerRows_ok_props keys GBs rest rows hrest
            set row := LERrow (assignLAEs NP.length ((GBs.lookup g).getD [])) keys with hrow
            refine ⟨by simp [ih1], ?_, ?_⟩
            · intro r hr
              rcases List.mem_cons.mp hr with hr | hr
              · subst hr
                rw [List.length_map, hrow, LERrow_length]
              · exact ih2 r hr
            · intro i hi hpos
              match i with
              | 0 =>
                  refine ⟨row.map (· / row.sum), rfl, ?_, ?_⟩
                  · have hN : (0 : ℚ) < (NP.length : ℚ) := by
                      exact_mod_cast hpos
                    rw [sum_map_div, hc, div_self (ne_of_gt hN)]
                  · intro x hx
                    obtain ⟨y, hy, rfl⟩ := List.mem_map.mp hx
                    have h0y : 0 ≤ y := LERrow_nonneg _ _ y hy
                    have h0N : 0 ≤ row.sum := by
                      rw [hc]; exact Nat.cast_nonneg _
                    exact div_nonneg h0y h0N
              | Nat.succ j =>
                  exact ih3 j (Nat.lt_of_succ_lt_succ hi) hpos
      · rw [if_neg hc] at h
        cases h

/-- C4: whenever `LER` returns a feature matrix, the matrix has one
row per sample and one column per surviving catalogue entry (in
finalized catalogue order), and for every sample with a non-zero atom
count the row is non-negative and sums to `1`. -/
theorem C4_LER_shape (S : α → α → ℚ) (seed? : Option α)
    (samples : List (String × List α)) (eps : ℚ) (M : List (List ℚ))
    (h : LER S seed? samples eps = .ok M) :
    ∃ res, uniquify S seed? samples eps = .ok res ∧
      M.length = samples.length ∧
      (∀ row ∈ M, row.length = res.U.length) ∧
      (∀ (i : Nat) (hi : i < samples.length), 0 < (samples.get ⟨i, hi⟩).2.length →
        ∃ row, M.get? i = some row ∧ row.sum = 1 ∧ ∀ x ∈ row, 0 ≤ x) := by
  rw [LER] at h
  cases hu : uniquify S seed? samples eps with
  | error e => rw [hu] at h; cases h
  | ok res =>
      rw [hu] at h
      obtain ⟨h1, h2, h3⟩ := lerRows_ok_props (res.U.map Prod.fst) res.GBs samples M h
      refine ⟨res, rfl, h1, ?_, h3⟩
      intro row hr
      rw [h2 row hr, List.length_map]

/-- Witness for C4 on a one-sample, one-atom collection whose single
atom coincides with the seed: the feature matrix is `[[1]]`. -/
theorem C4_LER_shape_witness :
    ([(1:ℚ)] : List ℚ).sum = 1 ∧ ([[(1:ℚ)]] : List (List ℚ)).length = 1 := by
  have hler : LER boolKernel (some false) [("A", [false])] 1 = .ok [[1]] := by
    have hu : uniquify boolKernel (some false) [("A", [false])] 1 =
        .ok ⟨[(seedKey, false)], [("A", [(seedKey, [seedKey, ("A", 0)])])], []⟩ := by decide
    simp only [LER]
    rw [hu]
    simp [lerRows, assignLAEs, LERrow, List.lookup, seedKey]
  obtain ⟨res, _, hlen, _, hrows⟩ :=
    C4_LER_shape boolKernel (some false) [("A", [false])] 1 [[1]] hler
  obtain ⟨row, hrow, hsum, _⟩ := hrows 0 (by decide) (by decide)
  have hr : row = [(1:ℚ)] := by simpa using hrow.symm
  subst hr
  exact ⟨hsum, hlen⟩

/-- Looking up `"padding"` after halving the `"padding"` values of an
association list yields half the original value. -/
theorem lookup_map_halvePadding (m : List (String × ℚ)) (p : ℚ)
    (h : m.lookup "padding" = some p) :
    (m.map (fun kv => if kv.1 = "padding" then (kv.1, kv.2 / 2) else kv)).lookup "padding"
      = some (p / 2) := by
  induction m with
  | nil => simp [List.lookup] at h
  | cons kv t ih =>
      obtain ⟨k, v⟩ := kv
      by_cases hk : k = "padding"
      · subst hk
        simp [List.lookup] at h
        simp [List.lookup, h]
      · have hb : ("padding" == k) = false := by
          rw [beq_eq_false_iff_ne]
          exact fun e => hk e.symm
        have hmap : (((k, v) :: t).map (fun kv => if kv.1 = "padding" then (kv.1, kv.2 / 2) else kv))
            = (k, v) :: t.map (fun kv => if kv.1 = "padding" then (kv.1, kv.2 / 2) else kv) := by
          simp [hk]
        rw [hmap]
        simp only [List.lookup, hb] at h
        simp only [List.lookup, hb]
        exact ih h

/-- C8: invoking `uniquify` on a collection whose seed is not
configured raises the missing-seed error immediately, before any
extraction work, while seed-independent operations such as `ASR`
are unaffected by the seed. -/
theorem C8_missing_seed (S : List ℚ → List ℚ → ℚ) (c : GBCol (List ℚ)) (eps : ℚ)
    (h : c.seed = none) :
    uniquifyCol S c eps = .error .missingSeed ∧
    (∀ v : List ℚ, ASRcol { c with seed := some v } = ASRcol c) := by
  refine ⟨?_, fun v => rfl⟩
  simp [uniquifyCol, uniquify, h]

/-- Witness for C8 at a concrete seedless collection. -/
theorem C8_missing_seed_witness :
    uniquifyCol (fun _ _ => (0:ℚ)) (⟨none, [("453", [[1, 2]])]⟩ : GBCol (List ℚ)) 1
      = .error .missingSeed ∧
    ASRcol (⟨some [9], [("453", [[1, 2]])]⟩ : GBCol (List ℚ))
      = ASRcol (⟨none, [("453", [[1, 2]])]⟩ : GBCol (List ℚ)) :=
  ⟨(C8_missing_seed (fun _ _ => 0) ⟨none, [("453", [[1, 2]])]⟩ 1 rfl).1,
   (C8_missing_seed (fun _ _ => 0) ⟨none, [("453", [[1, 2]])]⟩ 1 rfl).2 [9]⟩

/-- C10: constructing a `GrainBoundary` with the default
`selectargs=None` always fails, because the constructor
unconditionally tests `"padding" in selectargs`; with a mapping the
construction succeeds, and a supplied `"padding"` value is stored
halved. -/
theorem C10_selectargs_init :
    initSelectargs none = .error .selectargsNone ∧
    (∀ m : List (String × ℚ), (initSelectargs (some m)).toOption.isSome = true) ∧
    (∀ (m : List (String × ℚ)) (p : ℚ), m.lookup "padding" = some p →
      initSelectargs (some m) =
        .ok (m.map (fun kv => if kv.1 = "padding" then (kv.1, kv.2 / 2) else kv)) ∧
      (m.map (fun kv => if kv.1 = "padding" then (kv.1, kv.2 / 2) else kv)).lookup "padding"
        = some (p / 2)) := by
  refine ⟨rfl, fun m => rfl, fun m p h => ⟨?_, lookup_map_halvePadding m p h⟩⟩
  simp [initSelectargs, h]

/-- Witness for C10: `padding = 3` is stored as `3/2`. -/
theorem C10_selectargs_witness :
    initSelectargs (some [("padding", (3:ℚ))]) = .ok [("padding", (3:ℚ)/2)] ∧
    ([("padding", (3:ℚ)/2)] : List (String × ℚ)).lookup "padding" = some ((3:ℚ)/2) := by
  have h := C10_selectargs_init.2.2 [("padding", (3:ℚ))] 3 (by rfl)
  simpa using h

/-- C1 counterexample: with threshold `2` and a single atom whose only
catalogue entry (the seed) is at dissimilarity `3/2 < 2`, the claim
demands that the atom be assigned to that nearest entry; instead the
run aborts with the `result[None]` `KeyError`, because `K0` is
initialised to `1.0` and `3/2 < 1.0` never holds. -/
theorem C1_counterexample :
    nearestEntry farKernel 1 (extractAll farKernel 2 0 [("A", [1])]) = some (seedKey, mkRat 3 2) ∧
    mkRat 3 2 < 2 ∧
    pipelineErr (uniquify farKernel (some 0) [("A", [1])] 2) = some .keyErrorNone := by
  decide

/-- C7 counterexample: with threshold `2` and an atom at dissimilarity
`3 ≥ 2` from every catalogue entry, the claim demands a non-fatal
unclassifiable-atom warning; instead `_classify` aborts with the
`result[None]` `KeyError` (no warning branch is reached, since
`K0 = 1.0 < 2`). -/
theorem C7_counterexample :
    (2:ℚ) ≤ veryFarKernel 1 0 ∧
    classifyGB veryFarKernel 2 "A" [1] [(seedKey, 0)] [] = none := by
  decide

/-- C3 counterexample: the finalized catalogue puts the entry with the
*largest* dissimilarity to the seed first (`sorted(..., reverse=True)`
on the kernel score), not the most seed-similar one. -/
theorem C3_counterexample :
    catEntries (uniquify orderKernel (some 0) [("A", [1, 2])] (mkRat 1 4)) =
      some [(("A", 1), 2), (("A", 0), 1)] ∧
    orderKernel 2 0 = mkRat 7 10 ∧ orderKernel 1 0 = mkRat 3 10 ∧ mkRat 3 10 < mkRat 7 10 := by
  decide

/-- C6 counterexample: a collection with a single atom far from the
seed classifies that atom to its own entry only; the seed entry is
never used, gets pruned, and the finalized catalogue does not contain
the seed's sentinel identifier. -/
theorem C6_counterexample :
    catKeys (uniquify boolKernel (some false) [("A", [true])] (mkRat 1 2)) = some [("A", 0)] ∧
    seedKey ∉ [(("A" : String), (0 : Nat))] := by
  decide

/-- C9 counterexample: for the same input set, lowering the threshold
from `9/10` to `1/2` *decreases* the number of surviving catalogue
entries from 2 to 1, refuting antitonicity. -/
theorem C9_counterexample :
    mkRat 1 2 ≤ mkRat 9 10 ∧
    catSize (uniquify ceKernel (some 0) [("A", [1, 2, 3])] (mkRat 1 2)) = some 1 ∧
    catSize (uniquify ceKernel (some 0) [("A", [1, 2, 3])] (mkRat 9 10)) = some 2 := by
  decide

/-! ## Relating the `_classify` scan to the nearest-entry spec -/

/-- Unfolding lemma for one `bestGo` step. -/
theorem bestGo_cons (S : α → α → ℚ) (eps : ℚ) (v : α) (e : RepId × α)
    (t : List (RepId × α)) (st : ℚ × Option RepId) :
    bestGo S eps v (e :: t) st =
      bestGo S eps v t
        (if S v e.2 < eps ∧ S v e.2 < st.1 then (S v e.2, some e.1) else st) := rfl

/-- Unfolding lemma for one `nearestGo` step (generic accumulator). -/
theorem nearestGo_cons (S : α → α → ℚ) (v : α) (e : RepId × α)
    (t : List (RepId × α)) (b : Option (RepId × ℚ)) :
    nearestGo S v (e :: t) b =
      nearestGo S v t
        (match b with
         | none => some (e.1, S v e.2)
         | some (u0, K0) =>
             if S v e.2 < K0 then some (e.1, S v e.2) else some (u0, K0)) := rfl

/-- Unfolding lemma for one `nearestGo` step with a tracked minimum. -/
theorem nearestGo_cons_some (S : α → α → ℚ) (v : α) (e : RepId × α)
    (t : List (RepId × α)) (u0 : RepId) (K0 : ℚ) :
    nearestGo S v (e :: t) (some (u0, K0)) =
      nearestGo S v t
        (if S v e.2 < K0 then some (e.1, S v e.2) else some (u0, K0)) := rfl

/-- One step of the `_classify` scan, rewritten through `stOf`. -/
theorem bestGo_stOf (S : α → α → ℚ) (eps : ℚ) (v : α) (heps : eps ≤ 1) :
    ∀ (l : List (RepId × α)) (b : Option (RepId × ℚ)),
    bestGo S eps v l (stOf eps b) = stOf eps (nearestGo S v l b)
  | [], b => rfl
  | e :: t, b => by
      rw [bestGo_cons, nearestGo_cons]
      have hstep :
          (if S v e.2 < eps ∧ S v e.2 < (stOf eps b).1 then (S v e.2, some e.1)
           else stOf eps b)
            = stOf eps (match b with
                | none => some (e.1, S v e.2)
                | some (u0, K0) =>
                    if S v e.2 < K0 then some (e.1, S v e.2) else some (u0, K0)) := by
        rcases b with _ | ⟨u0, K0⟩
        · simp only [stOf]
          by_cases hK : S v e.2 < eps
          · rw [if_pos ⟨hK, lt_of_lt_of_le hK heps⟩, if_pos hK]
          · rw [if_neg (fun hc => hK hc.1), if_neg hK]
        · simp only [stOf]
          by_cases hK0 : K0 < eps
          · rw [if_pos hK0]
            by_cases hlt : S v e.2 < K0
            · rw [if_pos ⟨lt_trans hlt hK0, hlt⟩, if_pos hlt]
              simp only [stOf]
              rw [if_pos (lt_trans hlt hK0)]
            · rw [if_neg (fun hc => hlt hc.2), if_neg hlt]
              simp only [stOf]
              rw [if_pos hK0]
          · rw [if_neg hK0]
            by_cases hK : S v e.2 < eps
            · have hlt : S v e.2 < K0 := lt_of_lt_of_le hK (not_lt.mp hK0)
              rw [if_pos ⟨hK, lt_of_lt_of_le hK heps⟩, if_pos hlt]
              simp only [stOf]
              rw [if_pos hK]
            · rw [if_neg (fun hc => hK hc.1)]
              by_cases hlt : S v e.2 < K0
              · rw [if_pos hlt]
                simp only [stOf]
                rw [if_neg hK]
              · rw [if_neg hlt]
                simp only [stOf]
                rw [if_neg hK0]
      rw [hstep]
      exact bestGo_stOf S eps v heps t _

/-- For thresholds `≤ 1`, the `(K0, U0)` scan tracks exactly the
nearest entry whenever that entry is within the threshold. -/
theorem bestMatch_stOf (S : α → α → ℚ) (eps : ℚ) (v : α) (heps : eps ≤ 1)
    (uni : List (RepId × α)) :
    bestMatch S eps v uni = stOf eps (nearestEntry S v uni) :=
  bestGo_stOf S eps v heps uni none

/-- For thresholds `≤ 1`, the per-row outcome of `_classify` is:
assign to the nearest entry iff its dissimilarity is strictly below
the threshold, otherwise warn; the `KeyError` case never occurs. -/
theorem classifyAtom_nearest (S : α → α → ℚ) (eps : ℚ) (v : α) (heps : eps ≤ 1)
    (uni : List (RepId × α)) :
    classifyAtom S eps v uni =
      match nearestEntry S v uni with
      | none => some none
      | some (u, K) => if K < eps then some (some u) else some none := by
  have h1 : ¬ ((1 : ℚ) < eps) := not_lt.mpr heps
  rw [classifyAtom, bestMatch_stOf S eps v heps]
  rcases nearestEntry S v uni with _ | ⟨u, K⟩
  · simp only [stOf]
    rw [if_neg h1]
  · simp only [stOf]
    by_cases hK : K < eps
    · rw [if_pos hK, if_pos hK]
    · rw [if_neg hK, if_neg h1, if_neg hK]

/-- For thresholds `≤ 1` the per-row outcome always exists. -/
theorem classifyAtom_isSome (S : α → α → ℚ) (eps : ℚ) (v : α) (heps : eps ≤ 1)
    (uni : List (RepId × α)) :
    (classifyAtom S eps v uni).isSome := by
  rw [classifyAtom_nearest S eps v heps]
  cases hn : nearestEntry S v uni with
  | none => rfl
  | some p =>
      obtain ⟨u, K⟩ := p
      show (if K < eps then some (some u) else (some none : Option (Option RepId))).isSome = true
      by_cases hK : K < eps
      · rw [if_pos hK]
        rfl
      · rw [if_neg hK]
        rfl

/-- The nearest-entry accumulator computes the running minimum and its
first witness. -/
theorem nearestGo_min (S : α → α → ℚ) (v : α) :
    ∀ (l : List (RepId × α)) (u0 : RepId) (K0 : ℚ),
    ∃ u K, nearestGo S v l (some (u0, K0)) = some (u, K) ∧ K ≤ K0 ∧
      (∀ e ∈ l, K ≤ S v e.2) ∧
      ((u, K) = (u0, K0) ∨ ∃ e ∈ l, e.1 = u ∧ S v e.2 = K)
  | [], u0, K0 => ⟨u0, K0, rfl, le_refl _, by simp, Or.inl rfl⟩
  | e :: t, u0, K0 => by
      rw [nearestGo_cons_some]
      by_cases hlt : S v e.2 < K0
      · rw [if_pos hlt]
        obtain ⟨u, K, hres, hle, hall, horig⟩ := nearestGo_min S v t e.1 (S v e.2)
        refine ⟨u, K, hres, le_of_lt (lt_of_le_of_lt hle hlt), ?_, ?_⟩
        · intro x hx
          rcases List.mem_cons.mp hx with rfl | hx
          · exact hle
          · exact hall x hx
        · rcases horig with h | ⟨x, hx, hxu, hxK⟩
          · refine Or.inr ⟨e, List.mem_cons_self e t, ?_⟩
            injection h with h1 h2
            exact ⟨h1.symm, h2.symm⟩
          · exact Or.inr ⟨x, List.mem_cons_of_mem e hx, hxu, hxK⟩
      · rw [if_neg hlt]
        obtain ⟨u, K, hres, hle, hall, horig⟩ := nearestGo_min S v t u0 K0
        refine ⟨u, K, hres, hle, ?_, ?_⟩
        · intro x hx
          rcases List.mem_cons.mp hx with rfl | hx
          · exact le_trans hle (not_lt.mp hlt)
          · exact hall x hx
        · rcases horig with h | ⟨x, hx, hxu, hxK⟩
          · exact Or.inl h
          · exact Or.inr ⟨x, List.mem_cons_of_mem e hx, hxu, hxK⟩

/-- The spec-side nearest entry is a catalogue entry achieving the
global minimum dissimilarity. -/
theorem nearestEntry_min (S : α → α → ℚ) (v : α) (uni : List (RepId × α))
    (u : RepId) (K : ℚ) (h : nearestEntry S v uni = some (u, K)) :
    (∃ e ∈ uni, e.1 = u ∧ S v e.2 = K) ∧ ∀ e ∈ uni, K ≤ S v e.2 := by
  cases uni with
  | nil => cases h
  | cons e t =>
      rw [nearestEntry] at h
      have hcons : nearestGo S v (e :: t) none =
          nearestGo S v t (some (e.1, S v e.2)) := rfl
      rw [hcons] at h
      obtain ⟨u', K', hres, hle, hall, horig⟩ := nearestGo_min S v t e.1 (S v e.2)
      rw [hres] at h
      injection h with h
      injection h with h1 h2
      subst h1
      subst h2
      constructor
      · rcases horig with h | ⟨x, hx, hxu, hxK⟩
        · refine ⟨e, List.mem_cons_self e t, ?_⟩
          injection h with h1 h2
          exact ⟨h1.symm, h2.symm⟩
        · exact ⟨x, List.mem_cons_of_mem e hx, hxu, hxK⟩
      · intro x hx
        rcases List.mem_cons.mp hx with rfl | hx
        · exact hle
        · exact hall x hx

/-! ## Bookkeeping of the `result` dict in `_classify` -/

/-- Appending a fresh `result[k] = [k]` entry adds no equivalence
pairs, since its tail `elist[1:]` is empty. -/
theorem tailMem_append_singleton (res : List (RepId × List RepId)) (k u x : RepId) :
    tailMem (res ++ [(k, [k])]) u x ↔ tailMem res u x := by
  constructor
  · rintro ⟨l, hl, hx⟩
    rcases List.mem_append.mp hl with hl | hl
    · exact ⟨l, hl, hx⟩
    · rcases List.mem_singleton.mp hl with h
      injection h with h1 h2
      subst h2
      cases hx
  · rintro ⟨l, hl, hx⟩
    exact ⟨l, List.mem_append_left _ hl, hx⟩

/-- `ensureKeys` adds no equivalence pairs. -/
theorem tailMem_ensureKeys (u x : RepId) :
    ∀ (uni : List (RepId × α)) (res : List (RepId × List RepId)),
    tailMem (ensureKeys res uni) u x ↔ tailMem res u x
  | [], res => Iff.rfl
  | e :: t, res => by
      have hunf : ensureKeys res (e :: t) =
          ensureKeys (if res.any (fun p => decide (p.1 = e.1)) then res
                      else res ++ [(e.1, [e.1])]) t := rfl
      rw [hunf, tailMem_ensureKeys u x t]
      by_cases hc : res.any (fun p => decide (p.1 = e.1))
      · rw [if_pos hc]
      · rw [if_neg hc]
        exact tailMem_append_singleton res e.1 u x

/-- `ensureKeys` preserves existing entries. -/
theorem ensureKeys_persist :
    ∀ (uni : List (RepId × α)) (res : List (RepId × List RepId))
      (p : RepId × List RepId), p ∈ res → p ∈ ensureKeys res uni
  | [], _, _, hp => hp
  | e :: t, res, p, hp => by
      have hunf : ensureKeys res (e :: t) =
          ensureKeys (if res.any (fun q => decide (q.1 = e.1)) then res
                      else res ++ [(e.1, [e.1])]) t := rfl
      rw [hunf]
      by_cases hc : res.any (fun q => decide (q.1 = e.1))
      · rw [if_pos hc]
        exact ensureKeys_persist t res p hp
      · rw [if_neg hc]
        exact ensureKeys_persist t _ p (List.mem_append_left _ hp)

/-- After `ensureKeys`, every catalogue key has an entry. -/
theorem ensureKeys_mem_key :
    ∀ (uni : List (RepId × α)) (res : List (RepId × List RepId)) (u : RepId),
    (∃ e ∈ uni, e.1 = u) → ∃ l, (u, l) ∈ ensureKeys res uni
  | [], _, u, h => absurd h (by simp)
  | e :: t, res, u, h => by
      have hunf : ensureKeys res (e :: t) =
          ensureKeys (if res.any (fun q => decide (q.1 = e.1)) then res
                      else res ++ [(e.1, [e.1])]) t := rfl
      rw [hunf]
      obtain ⟨e', he', heu⟩ := h
      rcases List.mem_cons.mp he' with heq | he'
      · rw [heq] at heu
        by_cases hc : res.any (fun q => decide (q.1 = e.1))
        · rw [if_pos hc]
          obtain ⟨q, hq, hqe⟩ := List.any_eq_true.mp hc
          have hqu : q.1 = u := by
            rw [decide_eq_true_eq] at hqe
            rw [hqe, heu]
          have hq' : (u, q.2) ∈ res := by
            rw [← hqu]
            exact hq
          exact ⟨q.2, ensureKeys_persist t res (u, q.2) hq'⟩
        · rw [if_neg hc]
          refine ⟨[e.1], ensureKeys_persist t _ (u, [e.1]) ?_⟩
          rw [← heu]
          exact List.mem_append_right _ (List.mem_singleton.mpr rfl)
      · exact ensureKeys_mem_key t _ u ⟨e', he', heu⟩

/-- `ensureKeys` keeps every entry list non-empty. -/
theorem ensureKeys_wf :
    ∀ (uni : List (RepId × α)) (res : List (RepId × List RepId)),
    (∀ p ∈ res, p.2 ≠ []) → ∀ p ∈ ensureKeys res uni, p.2 ≠ []
  | [], _, hwf => hwf
  | e :: t, res, hwf => by
      have hunf : ensureKeys res (e :: t) =
          ensureKeys (if res.any (fun q => decide (q.1 = e.1)) then res
                      else res ++ [(e.1, [e.1])]) t := rfl
      rw [hunf]
      by_cases hc : res.any (fun q => decide (q.1 = e.1))
      · rw [if_pos hc]
        exact ensureKeys_wf t res hwf
      · rw [if_neg hc]
        refine ensureKeys_wf t _ ?_
        intro p hp
        rcases List.mem_append.mp hp with hp | hp
        · exact hwf p hp
        · rcases List.mem_singleton.mp hp with rfl
          simp

/-- `appendTo` keeps every entry list non-empty. -/
theorem appendTo_wf (res : List (RepId × List RepId)) (w y : RepId)
    (hwf : ∀ p ∈ res, p.2 ≠ []) : ∀ p ∈ appendTo res w y, p.2 ≠ [] := by
  intro p hp
  obtain ⟨q, hq, hfq⟩ := List.mem_map.mp hp
  by_cases hqw : q.1 = w
  · rw [if_pos hqw] at hfq
    rw [← hfq]
    simp
  · rw [if_neg hqw] at hfq
    rw [← hfq]
    exact hwf q hq

/-- Existing equivalence pairs survive `result[w].append(y)`. -/
theorem tailMem_appendTo_of (res : List (RepId × List RepId)) (w y u x : RepId)
    (h : tailMem res u x) : tailMem (appendTo res w y) u x := by
  obtain ⟨l, hl, hx⟩ := h
  have hlen : 1 ≤ l.length := by
    cases l with
    | nil => cases hx
    | cons a l2 =>
        cases l2 with
        | nil => cases hx
        | cons b l3 => simp
  by_cases hw : u = w
  · refine ⟨l ++ [y], ?_, ?_⟩
    · have : (if (u, l).1 = w then ((u, l).1, (u, l).2 ++ [y]) else (u, l)) = (u, l ++ [y]) := by
        rw [if_pos hw]
      rw [← this]
      exact List.mem_map_of_mem _ hl
    · rw [List.drop_append_of_le_length hlen]
      exact List.mem_append_left _ hx
  · refine ⟨l, ?_, hx⟩
    have : (if (u, l).1 = w then ((u, l).1, (u, l).2 ++ [y]) else (u, l)) = (u, l) := by
      rw [if_neg hw]
    rw [← this]
    exact List.mem_map_of_mem _ hl

/-- `result[w].append(y)` records the pair `(w, y)`, provided the
entry for `w` exists and is non-empty. -/
theorem tailMem_appendTo_self (res : List (RepId × List RepId)) (w y : RepId)
    (h : ∃ l, (w, l) ∈ res ∧ l ≠ []) : tailMem (appendTo res w y) w y := by
  obtain ⟨l, hl, hne⟩ := h
  have hlen : 1 ≤ l.length := by
    cases l with
    | nil => exact absurd rfl hne
    | cons a l2 => simp
  refine ⟨l ++ [y], ?_, ?_⟩
  · have : (if (w, l).1 = w then ((w, l).1, (w, l).2 ++ [y]) else (w, l)) = (w, l ++ [y]) := by
      rw [if_pos rfl]
    rw [← this]
    exact List.mem_map_of_mem _ hl
  · rw [List.drop_append_of_le_length hlen]
    exact List.mem_append_right _ (List.mem_singleton.mpr rfl)

/-- Every equivalence pair after `result[w].append(y)` is an old pair
or the new `(w, y)`. -/
theorem tailMem_appendTo_cases (res : List (RepId × List RepId)) (w y u x : RepId)
    (h : tailMem (appendTo res w y) u x) : tailMem res u x ∨ (u = w ∧ x = y) := by
  obtain ⟨l', hl', hx⟩ := h
  obtain ⟨q, hq, hfq⟩ := List.mem_map.mp hl'
  by_cases hqw : q.1 = w
  · rw [if_pos hqw] at hfq
    have hu : u = w := by
      have := congrArg Prod.fst hfq
      simp at this
      rw [← this, hqw]
    have hl2 : l' = q.2 ++ [y] := by
      have := congrArg Prod.snd hfq
      simpa using this.symm
    subst hl2
    cases hq2 : q.2 with
    | nil =>
        rw [hq2] at hx
        cases hx
    | cons a l2 =>
        rw [hq2] at hx
        have : x ∈ l2 ++ [y] := by
          simpa using hx
        rcases List.mem_append.mp this with hxl | hxy
        · left
          refine ⟨q.2, ?_, ?_⟩
          · have hqe : (u, q.2) = q := by
              rw [hu, ← hqw]
            rw [hqe]
            exact hq
          · rw [hq2]
            simpa using hxl
        · right
          exact ⟨hu, List.mem_singleton.mp hxy⟩
  · rw [if_neg hqw] at hfq
    left
    rw [hfq] at hq
    exact ⟨l', hq, hx⟩

/-! ## Induction lemmas for the `_classify` row loop -/

/-- Unfolding lemma for one `classifyGo` step. -/
theorem classifyGo_cons (S : α → α → ℚ) (eps : ℚ) (PID : String)
    (uni : List (RepId × α)) (i : Nat) (v : α) (vs : List α)
    (res : List (RepId × List RepId)) (used warns : List RepId) :
    classifyGo S eps PID uni i (v :: vs) (res, used, warns) =
      match classifyAtom S eps v uni with
      | none => none
      | some none =>
          classifyGo S eps PID uni (i + 1) vs
            (ensureKeys res uni, used, warns ++ [(PID, i)])
      | some (some u) =>
          classifyGo S eps PID uni (i + 1) vs
            (appendTo (ensureKeys res uni) u (PID, i), u :: used, warns) := rfl

/-- The `U0` selected by the scan is a catalogue key. -/
theorem bestGo_snd_keys (S : α → α → ℚ) (eps : ℚ) (v : α) :
    ∀ (l : List (RepId × α)) (st : ℚ × Option RepId) (u : RepId),
    (bestGo S eps v l st).2 = some u → st.2 = some u ∨ ∃ e ∈ l, e.1 = u
  | [], st, u, h => Or.inl h
  | e :: t, st, u, h => by
      rw [bestGo_cons] at h
      rcases bestGo_snd_keys S eps v t _ u h with h' | ⟨x, hx, hxu⟩
      · by_cases hc : S v e.2 < eps ∧ S v e.2 < st.1
        · rw [if_pos hc] at h'
          injection h' with h'
          exact Or.inr ⟨e, List.mem_cons_self e t, h'⟩
        · rw [if_neg hc] at h'
          exact Or.inl h'
      · exact Or.inr ⟨x, List.mem_cons_of_mem e hx, hxu⟩

/-- An assigned row is assigned to a catalogue key. -/
theorem classifyAtom_key (S : α → α → ℚ) (eps : ℚ) (v : α)
    (uni : List (RepId × α)) (u : RepId)
    (h : classifyAtom S eps v uni = some (some u)) : ∃ e ∈ uni, e.1 = u := by
  rw [classifyAtom] at h
  rcases hbm : bestMatch S eps v uni with ⟨K0, U0⟩
  rw [hbm] at h
  cases U0 with
  | none =>
      have h' : (if K0 < eps then (none : Option (Option RepId)) else some none)
          = some (some u) := h
      by_cases hK : K0 < eps
      · rw [if_pos hK] at h'
        cases h'
      · rw [if_neg hK] at h'
        injection h' with h'
        cases h'
  | some w =>
      have h' : (if K0 < eps then (some (some w) : Option (Option RepId)) else some none)
          = some (some u) := h
      by_cases hK : K0 < eps
      · rw [if_pos hK] at h'
        injection h' with h'
        injection h' with h'
        subst h'
        have hsnd : (bestGo S eps v uni (1, none)).2 = some w := by
          show (bestMatch S eps v uni).2 = some w
          rw [hbm]
        rcases bestGo_snd_keys S eps v uni (1, none) w hsnd with h2 | h2
        · cases h2
        · exact h2
      · rw [if_neg hK] at h'
        injection h' with h'
        cases h'

/-- (G1) For thresholds `≤ 1` the row loop never aborts. -/
theorem classifyGo_isSome (S : α → α → ℚ) (eps : ℚ) (PID : String)
    (uni : List (RepId × α)) (heps : eps ≤ 1) :
    ∀ (NP : List α) (i : Nat) (st : ClassifyState),
    (classifyGo S eps PID uni i NP st).isSome
  | [], _, st => rfl
  | v :: vs, i, st => by
      obtain ⟨res, used, warns⟩ := st
      rw [classifyGo_cons]
      cases hca : classifyAtom S eps v uni with
      | none =>
          have hs := classifyAtom_isSome S eps v heps uni
          rw [hca] at hs
          cases hs
      | some o =>
          cases o with
          | none => exact classifyGo_isSome S eps PID uni heps vs (i + 1) _
          | some u => exact classifyGo_isSome S eps PID uni heps vs (i + 1) _

/-- (G2) The `used` flags only accumulate. -/
theorem classifyGo_used_mono (S : α → α → ℚ) (eps : ℚ) (PID : String)
    (uni : List (RepId × α)) :
    ∀ (NP : List α) (i : Nat) (res : List (RepId × List RepId))
      (used warns : List RepId) (res' : List (RepId × List RepId))
      (used' warns' : List RepId),
    classifyGo S eps PID uni i NP (res, used, warns) = some (res', used', warns') →
    ∀ k ∈ used, k ∈ used'
  | [], _, res, used, warns, res', used', warns', h => by
      injection h with h
      cases h
      exact fun k hk => hk
  | v :: vs, i, res, used, warns, res', used', warns', h => by
      rw [classifyGo_cons] at h
      cases hca : classifyAtom S eps v uni with
      | none =>
          rw [hca] at h
          cases h
      | some o =>
          cases o with
          | none =>
              rw [hca] at h
              exact classifyGo_used_mono S eps PID uni vs (i + 1) _ _ _ _ _ _ h
          | some u =>
              rw [hca] at h
              intro k hk
              exact classifyGo_used_mono S eps PID uni vs (i + 1) _ _ _ _ _ _ h k
                (List.mem_cons_of_mem u hk)

/-- (G3) An assigned row's entry is flagged used. -/
theorem classifyGo_used_of_outcome (S : α → α → ℚ) (eps : ℚ) (PID : String)
    (uni : List (RepId × α)) :
    ∀ (NP : List α) (i : Nat) (res : List (RepId × List RepId))
      (used warns : List RepId) (res' : List (RepId × List RepId))
      (used' warns' : List RepId),
    classifyGo S eps PID uni i NP (res, used, warns) = some (res', used', warns') →
    ∀ (j : Nat) (v : α) (u : RepId), NP.get? j = some v →
    classifyAtom S eps v uni = some (some u) → u ∈ used'
  | [], _, res, used, warns, res', used', warns', h, j, v, u, hj, hca => by
      cases hj
  | v0 :: vs, i, res, used, warns, res', used', warns', h, j, v, u, hj, hca => by
      rw [classifyGo_cons] at h
      cases j with
      | zero =>
          have hv : v0 = v := by
            injection hj
          subst hv
          rw [hca] at h
          exact classifyGo_used_mono S eps PID uni vs (i + 1) _ _ _ _ _ _ h u
            (List.mem_cons_self u _)
      | succ j' =>
          have hj' : vs.get? j' = some v := hj
          cases hca0 : classifyAtom S eps v0 uni with
          | none =>
              rw [hca0] at h
              cases h
          | some o =>
              cases o with
              | none =>
                  rw [hca0] at h
                  exact classifyGo_used_of_outcome S eps PID uni vs (i + 1) _ _ _ _ _ _ h
                    j' v u hj' hca
              | some w =>
                  rw [hca0] at h
                  exact classifyGo_used_of_outcome S eps PID uni vs (i + 1) _ _ _ _ _ _ h
                    j' v u hj' hca

/-- (G5a) Warnings only accumulate. -/
theorem classifyGo_warns_mono (S : α → α → ℚ) (eps : ℚ) (PID : String)
    (uni : List (RepId × α)) :
    ∀ (NP : List α) (i : Nat) (res : List (RepId × List RepId))
      (used warns : List RepId) (res' : List (RepId × List RepId))
      (used' warns' : List RepId),
    classifyGo S eps PID uni i NP (res, used, warns) = some (res', used', warns') →
    ∀ k ∈ warns, k ∈ warns'
  | [], _, res, used, warns, res', used', warns', h => by
      injection h with h
      cases h
      exact fun k hk => hk
  | v :: vs, i, res, used, warns, res', used', warns', h => by
      rw [classifyGo_cons] at h
      cases hca : classifyAtom S eps v uni with
      | none =>
          rw [hca] at h
          cases h
      | some o =>
          cases o with
          | none =>
              rw [hca] at h
              intro k hk
              exact classifyGo_warns_mono S eps PID uni vs (i + 1) _ _ _ _ _ _ h k
                (List.mem_append_left _ hk)
          | some u =>
              rw [hca] at h
              exact classifyGo_warns_mono S eps PID uni vs (i + 1) _ _ _ _ _ _ h

/-- (G5b) An unmatched row is recorded in the warnings. -/
theorem classifyGo_warn_of_outcome (S : α → α → ℚ) (eps : ℚ) (PID : String)
    (uni : List (RepId × α)) :
    ∀ (NP : List α) (i : Nat) (res : List (RepId × List RepId))
      (used warns : List RepId) (res' : List (RepId × List RepId))
      (used' warns' : List RepId),
    classifyGo S eps PID uni i NP (res, used, warns) = some (res', used', warns') →
    ∀ (j : Nat) (v : α), NP.get? j = some v →
    classifyAtom S eps v uni = some none → (PID, i + j) ∈ warns'
  | [], _, res, used, warns, res', used', warns', h, j, v, hj, hca => by
      cases hj
  | v0 :: vs, i, res, used, warns, res', used', warns', h, j, v, hj, hca => by
      rw [classifyGo_cons] at h
      cases j with
      | zero =>
          have hv : v0 = v := by
            injection hj
          subst hv
          rw [hca] at h
          have : (PID, i) ∈ warns ++ [(PID, i)] :=
            List.mem_append_right _ (List.mem_singleton.mpr rfl)
          have hmem := classifyGo_warns_mono S eps PID uni vs (i + 1) _ _ _ _ _ _ h
            (PID, i) this
          simpa using hmem
      | succ j' =>
          have hj' : vs.get? j' = some v := hj
          have harith : i + (j' + 1) = (i + 1) + j' := by omega
          cases hca0 : classifyAtom S eps v0 uni with
          | none =>
              rw [hca0] at h
              cases h
          | some o =>
              cases o with
              | none =>
                  rw [hca0] at h
                  rw [harith]
                  exact classifyGo_warn_of_outcome S eps PID uni vs (i + 1) _ _ _ _ _ _ h
                    j' v hj' hca
              | some w =>
                  rw [hca0] at h
                  rw [harith]
                  exact classifyGo_warn_of_outcome S eps PID uni vs (i + 1) _ _ _ _ _ _ h
                    j' v hj' hca

/-- (G4) Complete characterisation of the equivalence pairs recorded
by the row loop: exactly the old pairs plus one pair `(u, (PID, i+j))`
for every row `j` assigned to entry `u`. -/
theorem classifyGo_tailMem (S : α → α → ℚ) (eps : ℚ) (PID : String)
    (uni : List (RepId × α)) :
    ∀ (NP : List α) (i : Nat) (res : List (RepId × List RepId))
      (used warns : List RepId) (res' : List (RepId × List RepId))
      (used' warns' : List RepId),
    (∀ p ∈ res, p.2 ≠ []) →
    classifyGo S eps PID uni i NP (res, used, warns) = some (res', used', warns') →
    ∀ u x, tailMem res' u x ↔
      (tailMem res u x ∨ ∃ j v, NP.get? j = some v ∧ x = (PID, i + j) ∧
        classifyAtom S eps v uni = some (some u))
  | [], _, res, used, warns, res', used', warns', _, h, u, x => by
      injection h with h
      cases h
      constructor
      · exact fun hm => Or.inl hm
      · rintro (hm | ⟨j, v, hj, _, _⟩)
        · exact hm
        · cases hj
  | v0 :: vs, i, res, used, warns, res', used', warns', hwf, h, u, x => by
      rw [classifyGo_cons] at h
      cases hca0 : classifyAtom S eps v0 uni with
      | none =>
          rw [hca0] at h
          cases h
      | some o =>
          cases o with
          | none =>
              rw [hca0] at h
              have hwf1 : ∀ p ∈ ensureKeys res uni, p.2 ≠ [] := ensureKeys_wf uni res hwf
              rw [classifyGo_tailMem S eps PID uni vs (i + 1) _ _ _ _ _ _ hwf1 h u x]
              rw [tailMem_ensureKeys u x uni res]
              constructor
              · rintro (hm | ⟨j, v, hj, hx, hcv⟩)
                · exact Or.inl hm
                · refine Or.inr ⟨j + 1, v, hj, ?_, hcv⟩
                  rw [hx]
                  have : i + 1 + j = i + (j + 1) := by omega
                  rw [this]
              · rintro (hm | ⟨j, v, hj, hx, hcv⟩)
                · exact Or.inl hm
                · cases j with
                  | zero =>
                      have hvv : v0 = v := by
                        injection hj
                      rw [← hvv] at hcv
                      rw [hca0] at hcv
                      injection hcv with hcv
                      cases hcv
                  | succ j' =>
                      refine Or.inr ⟨j', v, hj, ?_, hcv⟩
                      rw [hx]
                      have : i + (j' + 1) = i + 1 + j' := by omega
                      rw [this]
          | some w =>
              rw [hca0] at h
              have hwf1 : ∀ p ∈ ensureKeys res uni, p.2 ≠ [] := ensureKeys_wf uni res hwf
              have hwf2 : ∀ p ∈ appendTo (ensureKeys res uni) w (PID, i), p.2 ≠ [] :=
                appendTo_wf _ w (PID, i) hwf1
              have hkey : ∃ l, (w, l) ∈ ensureKeys res uni ∧ l ≠ [] := by
                obtain ⟨l, hl⟩ :=
                  ensureKeys_mem_key uni res w (classifyAtom_key S eps v0 uni w hca0)
                exact ⟨l, hl, hwf1 (w, l) hl⟩
              rw [classifyGo_tailMem S eps PID uni vs (i + 1) _ _ _ _ _ _ hwf2 h u x]
              constructor
              · rintro (hm | ⟨j, v, hj, hx, hcv⟩)
                · rcases tailMem_appendTo_cases _ w (PID, i) u x hm with hm' | ⟨rfl, rfl⟩
                  · exact Or.inl ((tailMem_ensureKeys u x uni res).mp hm')
                  · refine Or.inr ⟨0, v0, rfl, ?_, hca0⟩
                    rw [Nat.add_zero]
                · refine Or.inr ⟨j + 1, v, hj, ?_, hcv⟩
                  rw [hx]
                  have : i + 1 + j = i + (j + 1) := by omega
                  rw [this]
              · rintro (hm | ⟨j, v, hj, hx, hcv⟩)
                · exact Or.inl (tailMem_appendTo_of _ w (PID, i) u x
                    ((tailMem_ensureKeys u x uni res).mpr hm))
                · cases j with
                  | zero =>
                      have hvv : v0 = v := by
                        injection hj
                      rw [← hvv] at hcv
                      rw [hca0] at hcv
                      injection hcv with hcv
                      injection hcv with hcv
                      subst hcv
                      rw [Nat.add_zero] at hx
                      rw [hx]
                      exact Or.inl (tailMem_appendTo_self _ w (PID, i) hkey)
                  | succ j' =>
                      refine Or.inr ⟨j', v, hj, ?_, hcv⟩
                      rw [hx]
                      have : i + (j' + 1) = i + 1 + j' := by omega
                      rw [this]

/-- C1 (amended): for every threshold at most `1`, classification
assigns a row to the entry with the globally minimum dissimilarity
(ties broken by the first entry in catalogue iteration order, which is
what `nearestEntry` computes) if and only if that minimum is strictly
below the threshold — an exact tie is not classified — and the chosen
entry is recorded as used.  (For thresholds above `1` this fails; see
the counterexample.) -/
theorem C1_nearest_assignment (S : α → α → ℚ) (eps : ℚ) (heps : eps ≤ 1) :
    (∀ (v : α) (uni : List (RepId × α)),
      classifyAtom S eps v uni =
        match nearestEntry S v uni with
        | none => some none
        | some (u, K) => if K < eps then some (some u) else some none) ∧
    (∀ (v : α) (uni : List (RepId × α)) (u : RepId) (K : ℚ),
      nearestEntry S v uni = some (u, K) →
      (∃ e ∈ uni, e.1 = u ∧ S v e.2 = K) ∧ ∀ e ∈ uni, K ≤ S v e.2) ∧
    (∀ (PID : String) (NP : List α) (uni : List (RepId × α)) (used0 : List RepId)
      (resG : List (RepId × List RepId)) (usedG warnsG : List RepId)
      (j : Nat) (v : α) (u : RepId) (K : ℚ),
      classifyGB S eps PID NP uni used0 = some (resG, usedG, warnsG) →
      NP.get? j = some v → nearestEntry S v uni = some (u, K) →
      ((K < eps → tailMem resG u (PID, j) ∧ u ∈ usedG) ∧
       (eps ≤ K → ¬ ∃ w, tailMem resG w (PID, j)))) := by
  refine ⟨fun v uni => classifyAtom_nearest S eps v heps uni,
    fun v uni u K h => nearestEntry_min S v uni u K h, ?_⟩
  intro PID NP uni used0 resG usedG warnsG j v u K hgb hj hn
  have hwf0 : ∀ p ∈ ([] : List (RepId × List RepId)), p.2 ≠ [] := by
    intro p hp
    cases hp
  have hchar := classifyGo_tailMem S eps PID uni NP 0 [] used0 [] resG usedG warnsG
    hwf0 hgb
  constructor
  · intro hK
    have hca : classifyAtom S eps v uni = some (some u) := by
      rw [classifyAtom_nearest S eps v heps, hn]
      show (if K < eps then some (some u) else (some none : Option (Option RepId)))
        = some (some u)
      rw [if_pos hK]
    constructor
    · refine (hchar u (PID, j)).mpr (Or.inr ⟨j, v, hj, ?_, hca⟩)
      rw [Nat.zero_add]
    · exact classifyGo_used_of_outcome S eps PID uni NP 0 _ _ _ _ _ _ hgb j v u hj hca
  · intro hK
    have hca : classifyAtom S eps v uni = some none := by
      rw [classifyAtom_nearest S eps v heps, hn]
      show (if K < eps then some (some u) else (some none : Option (Option RepId)))
        = some none
      rw [if_neg (not_lt.mpr hK)]
    rintro ⟨w, hw⟩
    rcases (hchar w (PID, j)).mp hw with ⟨l, hl, _⟩ | ⟨j', v', hj', hx, hcv⟩
    · cases hl
    · have hjj : j = j' := by
        injection hx with _ hx2
        rw [hx2, Nat.zero_add]
      subst hjj
      rw [hj] at hj'
      injection hj' with hj'
      subst hj'
      rw [hca] at hcv
      injection hcv with hcv
      cases hcv

/-- Witness for C1: a single atom identical to the seed is assigned to
the seed entry (minimum dissimilarity `0 < 1/2`), and the entry is
recorded as used. -/
theorem C1_nearest_assignment_witness :
    tailMem [(seedKey, [seedKey, ("A", 0)])] seedKey ("A", 0) ∧
    seedKey ∈ [seedKey] := by
  have hgb : classifyGB boolKernel (mkRat 1 2) "A" [false] [(seedKey, false)] [] =
      some ([(seedKey, [seedKey, ("A", 0)])], [seedKey], []) := by decide
  have hn : nearestEntry boolKernel false [(seedKey, false)] = some (seedKey, 0) := by
    decide
  have h := (C1_nearest_assignment boolKernel (mkRat 1 2) (by decide)).2.2
    "A" [false] [(seedKey, false)] [] _ _ _ 0 false seedKey 0 hgb rfl hn
  exact h.1 (by decide)

/-- C7 (amended): for every threshold at most `1`, a row whose
dissimilarity to every catalogue entry is at least the threshold is
reported in the warnings, is not assigned to any entry, and the loop
completes (processing continues for the remaining rows).  (For
thresholds above `1` the loop instead aborts with the `result[None]`
`KeyError`; see the counterexample.) -/
theorem C7_warn_unmatched (S : α → α → ℚ) (eps : ℚ) (heps : eps ≤ 1)
    (PID : String) (NP : List α) (uni : List (RepId × α)) (used0 : List RepId) :
    (classifyGB S eps PID NP uni used0).isSome ∧
    (∀ (resG : List (RepId × List RepId)) (usedG warnsG : List RepId),
      classifyGB S eps PID NP uni used0 = some (resG, usedG, warnsG) →
      ∀ (j : Nat) (v : α), NP.get? j = some v → (∀ e ∈ uni, eps ≤ S v e.2) →
        (PID, j) ∈ warnsG ∧ ¬ ∃ w, tailMem resG w (PID, j)) := by
  constructor
  · exact classifyGo_isSome S eps PID uni heps NP 0 ([], used0, [])
  · intro resG usedG warnsG hgb j v hj hall
    have hca : classifyAtom S eps v uni = some none := by
      rw [classifyAtom_nearest S eps v heps]
      cases hn : nearestEntry S v uni with
      | none => rfl
      | some p =>
          obtain ⟨u, K⟩ := p
          obtain ⟨⟨e, he, _, heK⟩, _⟩ := nearestEntry_min S v uni u K hn
          have hKe : eps ≤ K := by
            rw [← heK]
            exact hall e he
          show (if K < eps then some (some u) else (some none : Option (Option RepId)))
            = some none
          rw [if_neg (not_lt.mpr hKe)]
    constructor
    · have := classifyGo_warn_of_outcome S eps PID uni NP 0 _ _ _ _ _ _ hgb j v hj hca
      simpa using this
    · have hwf0 : ∀ p ∈ ([] : List (RepId × List RepId)), p.2 ≠ [] := by
        intro p hp
        cases hp
      have hchar := classifyGo_tailMem S eps PID uni NP 0 [] used0 [] resG usedG warnsG
        hwf0 hgb
      rintro ⟨w, hw⟩
      rcases (hchar w (PID, j)).mp hw with ⟨l, hl, _⟩ | ⟨j', v', hj', hx, hcv⟩
      · cases hl
      · have hjj : j = j' := by
          injection hx with _ hx2
          rw [hx2, Nat.zero_add]
        subst hjj
        rw [hj] at hj'
        injection hj' with hj'
        subst hj'
        rw [hca] at hcv
        injection hcv with hcv
        cases hcv

/-- Witness for C7: one atom at dissimilarity `1 ≥ 1/2` from the only
catalogue entry is warned about, with the loop completing. -/
theorem C7_warn_unmatched_witness :
    (classifyGB boolKernel (mkRat 1 2) "A" [true] [(seedKey, false)] []).isSome ∧
    ((("A" : String), (0 : Nat)) ∈ [(("A" : String), (0 : Nat))]) := by
  have h := C7_warn_unmatched boolKernel (mkRat 1 2) (by decide) "A" [true]
    [(seedKey, false)] []
  have hgb : classifyGB boolKernel (mkRat 1 2) "A" [true] [(seedKey, false)] [] =
      some ([(seedKey, [seedKey])], [], [("A", 0)]) := by decide
  refine ⟨h.1, ?_⟩
  exact (h.2 _ _ _ hgb 0 true rfl (by decide)).1

/-! ## Coverage: every atom has a catalogue entry within `eps` -/

/-- The tracked `K0` never increases during the scan. -/
theorem bestGo_fst_le (S : α → α → ℚ) (eps : ℚ) (v : α) :
    ∀ (l : List (RepId × α)) (st : ℚ × Option RepId),
    (bestGo S eps v l st).1 ≤ st.1
  | [], st => le_refl _
  | e :: t, st => by
      rw [bestGo_cons]
      by_cases hc : S v e.2 < eps ∧ S v e.2 < st.1
      · rw [if_pos hc]
        exact le_trans (bestGo_fst_le S eps v t _) (le_of_lt hc.2)
      · rw [if_neg hc]
        exact bestGo_fst_le S eps v t st

/-- Any entry within `eps` bounds the final `K0` from above. -/
theorem bestGo_fst_ub (S : α → α → ℚ) (eps : ℚ) (v : α) :
    ∀ (l : List (RepId × α)) (st : ℚ × Option RepId) (e : RepId × α),
    e ∈ l → S v e.2 < eps → (bestGo S eps v l st).1 ≤ S v e.2
  | [], _, e, he, _ => absurd he (List.not_mem_nil e)
  | e0 :: t, st, e, he, heps' => by
      rw [bestGo_cons]
      rcases List.mem_cons.mp he with heq | he
      · subst heq
        by_cases hc : S v e.2 < eps ∧ S v e.2 < st.1
        · rw [if_pos hc]
          exact bestGo_fst_le S eps v t _
        · rw [if_neg hc]
          have hst : st.1 ≤ S v e.2 := by
            by_contra hlt
            exact hc ⟨heps', not_le.mp hlt⟩
          exact le_trans (bestGo_fst_le S eps v t st) hst
      · exact bestGo_fst_ub S eps v t _ e he heps'

/-- A covered row is never sent to the warning branch. -/
theorem classifyAtom_ne_warn (S : α → α → ℚ) (eps : ℚ) (v : α)
    (uni : List (RepId × α)) (e : RepId × α) (he : e ∈ uni)
    (heps' : S v e.2 < eps) : classifyAtom S eps v uni ≠ some none := by
  intro h
  rw [classifyAtom] at h
  rcases hbm : bestMatch S eps v uni with ⟨K0, U0⟩
  rw [hbm] at h
  have hK0 : K0 < eps := by
    have hub := bestGo_fst_ub S eps v uni (1, none) e he heps'
    have : (bestMatch S eps v uni).1 = K0 := by
      rw [hbm]
    rw [bestMatch] at this
    rw [this] at hub
    exact lt_of_le_of_lt hub heps'
  cases U0 with
  | none =>
      have h' : (if K0 < eps then (none : Option (Option RepId)) else some none)
          = some none := h
      rw [if_pos hK0] at h'
      cases h'
  | some w =>
      have h' : (if K0 < eps then (some (some w) : Option (Option RepId)) else some none)
          = some none := h
      rw [if_pos hK0] at h'
      injection h' with h'
      cases h'

/-- (G6) A completed row loop had no aborting row. -/
theorem classifyGo_outcome_ne_none (S : α → α → ℚ) (eps : ℚ) (PID : String)
    (uni : List (RepId × α)) :
    ∀ (NP : List α) (i : Nat) (st : ClassifyState) (st' : ClassifyState),
    classifyGo S eps PID uni i NP st = some st' →
    ∀ (j : Nat) (v : α), NP.get? j = some v → classifyAtom S eps v uni ≠ none
  | [], _, st, st', _, j, v, hj => by cases hj
  | v0 :: vs, i, st, st', h, j, v, hj => by
      obtain ⟨res, used, warns⟩ := st
      rw [classifyGo_cons] at h
      cases j with
      | zero =>
          have hv : v0 = v := by
            injection hj
          subst hv
          intro hca
          rw [hca] at h
          cases h
      | succ j' =>
          have hj' : vs.get? j' = some v := hj
          cases hca0 : classifyAtom S eps v0 uni with
          | none =>
              rw [hca0] at h
              cases h
          | some o =>
              cases o with
              | none =>
                  rw [hca0] at h
                  exact classifyGo_outcome_ne_none S eps PID uni vs (i + 1) _ _ h j' v hj'
              | some w =>
                  rw [hca0] at h
                  exact classifyGo_outcome_ne_none S eps PID uni vs (i + 1) _ _ h j' v hj'

/-- After `_uniquify` over one GB, every row of that GB has some
catalogue entry within `eps` (its own entry in the worst case). -/
theorem uniquifyPassGo_covered (S : α → α → ℚ) (eps : ℚ) (g : String)
    (hS0 : ∀ w : α, S w w = 0) (heps : 0 < eps) :
    ∀ (NP : List α) (i : Nat) (uni : List (RepId × α)) (v : α), v ∈ NP →
    ∃ e ∈ uniquifyPassGo S eps g i NP uni, S v e.2 < eps
  | [], _, _, v, hv => absurd hv (List.not_mem_nil v)
  | v0 :: vs, i, uni, v, hv => by
      rcases List.mem_cons.mp hv with heq | hv
      · subst heq
        by_cases hc : uni.any (fun u => decide (S v u.2 < eps))
        · obtain ⟨e, he, hse⟩ := List.any_eq_true.mp hc
          rw [decide_eq_true_eq] at hse
          obtain ⟨ext, hext⟩ := uniquifyPassGo_append S eps g vs (i + 1)
            (if uni.any (fun u => decide (S v u.2 < eps)) then uni
             else uni ++ [((g, i), v)])
          refine ⟨e, ?_, hse⟩
          show e ∈ uniquifyPassGo S eps g (i + 1) vs
            (if uni.any (fun u => decide (S v u.2 < eps)) then uni
             else uni ++ [((g, i), v)])
          rw [hext]
          refine List.mem_append_left _ ?_
          rw [if_pos hc]
          exact he
        · obtain ⟨ext, hext⟩ := uniquifyPassGo_append S eps g vs (i + 1)
            (if uni.any (fun u => decide (S v u.2 < eps)) then uni
             else uni ++ [((g, i), v)])
          refine ⟨((g, i), v), ?_, by
            show S v v < eps
            rw [hS0 v]
            exact heps⟩
          show ((g, i), v) ∈ uniquifyPassGo S eps g (i + 1) vs
            (if uni.any (fun u => decide (S v u.2 < eps)) then uni
             else uni ++ [((g, i), v)])
          rw [hext]
          refine List.mem_append_left _ ?_
          rw [if_neg hc]
          exact List.mem_append_right _ (List.mem_singleton.mpr rfl)
      · exact uniquifyPassGo_covered S eps g hS0 heps vs (i + 1) _ v hv

/-- After the full extraction loop, every atom of every sample has
some catalogue entry within `eps`. -/
theorem extractGo_covered (S : α → α → ℚ) (eps : ℚ)
    (hS0 : ∀ w : α, S w w = 0) (heps : 0 < eps) :
    ∀ (samples : List (String × List α)) (uni : List (RepId × α))
      (g : String) (NP : List α), (g, NP) ∈ samples → ∀ v ∈ NP,
    ∃ e ∈ extractGo S eps samples uni, S v e.2 < eps
  | [], _, g, NP, hm, v, hv => absurd hm (List.not_mem_nil _)
  | (g0, NP0) :: rest, uni, g, NP, hm, v, hv => by
      rcases List.mem_cons.mp hm with heq | hm
      · obtain ⟨ext, hext⟩ := extractGo_append S eps rest (uniquifyPass S eps g0 NP0 uni)
        have hv0 : v ∈ NP0 := by
          injection heq with h1 h2
          rw [← h2]
          exact hv
        obtain ⟨e, he, hse⟩ :=
          uniquifyPassGo_covered S eps g0 hS0 heps NP0 0 uni v hv0
        refine ⟨e, ?_, hse⟩
        show e ∈ extractGo S eps rest (uniquifyPass S eps g0 NP0 uni)
        rw [hext]
        exact List.mem_append_left _ he
      · exact extractGo_covered S eps hS0 heps rest _ g NP hm v hv

/-! ## The classification loop over all samples -/

/-- Unfolding lemma for one `classifyAll` step. -/
theorem classifyAll_cons (S : α → α → ℚ) (eps : ℚ) (uni : List (RepId × α))
    (g : String) (NP : List α) (rest : List (String × List α)) (used : List RepId) :
    classifyAll S eps uni ((g, NP) :: rest) used =
      match classifyGB S eps g NP uni used with
      | none => none
      | some (res, used', warns) =>
          match classifyAll S eps uni rest used' with
          | none => none
          | some (gbs, usedF, warnsF) => some ((g, res) :: gbs, usedF, warns ++ warnsF) := rfl

/-- The `used` flags only accumulate across samples. -/
theorem classifyAll_used_mono (S : α → α → ℚ) (eps : ℚ) (uni : List (RepId × α)) :
    ∀ (samples : List (String × List α)) (used : List RepId)
      (gbs : List (String × List (RepId × List RepId))) (usedF warnsF : List RepId),
    classifyAll S eps uni samples used = some (gbs, usedF, warnsF) →
    ∀ k ∈ used, k ∈ usedF
  | [], used, gbs, usedF, warnsF, h => by
      injection h with h
      cases h
      exact fun k hk => hk
  | (g, NP) :: rest, used, gbs, usedF, warnsF, h => by
      rw [classifyAll_cons] at h
      cases hgb : classifyGB S eps g NP uni used with
      | none =>
          rw [hgb] at h
          cases h
      | some st =>
          obtain ⟨res, used', warns⟩ := st
          rw [hgb] at h
          have h2 : (match classifyAll S eps uni rest used' with
              | none => none
              | some (gbs2, usedF2, warnsF2) =>
                  some ((g, res) :: gbs2, usedF2, warns ++ warnsF2)) =
              some (gbs, usedF, warnsF) := h
          cases hrest : classifyAll S eps uni rest used' with
          | none =>
              rw [hrest] at h2
              cases h2
          | some st2 =>
              obtain ⟨gbs2, usedF2, warnsF2⟩ := st2
              rw [hrest] at h2
              injection h2 with h2
              cases h2
              intro k hk
              exact classifyAll_used_mono S eps uni rest used' _ _ _ hrest k
                (classifyGo_used_mono S eps g uni NP 0 _ _ _ _ _ _ hgb k hk)

/-- Any assigned entry anywhere in the collection ends up flagged used
in the final `used` set. -/
theorem classifyAll_used_of_outcome (S : α → α → ℚ) (eps : ℚ)
    (uni : List (RepId × α)) :
    ∀ (samples : List (String × List α)) (used : List RepId)
      (gbs : List (String × List (RepId × List RepId))) (usedF warnsF : List RepId),
    classifyAll S eps uni samples used = some (gbs, usedF, warnsF) →
    ∀ (g : String) (NP : List α), (g, NP) ∈ samples →
    ∀ (j : Nat) (v : α) (u : RepId), NP.get? j = some v →
    classifyAtom S eps v uni = some (some u) → u ∈ usedF
  | [], used, gbs, usedF, warnsF, h, g, NP, hm => absurd hm (List.not_mem_nil _)
  | (g0, NP0) :: rest, used, gbs, usedF, warnsF, h, g, NP, hm => by
      rw [classifyAll_cons] at h
      cases hgb : classifyGB S eps g0 NP0 uni used with
      | none =>
          rw [hgb] at h
          cases h
      | some st =>
          obtain ⟨res, used', warns⟩ := st
          rw [hgb] at h
          have h2 : (match classifyAll S eps uni rest used' with
              | none => none
              | some (gbs2, usedF2, warnsF2) =>
                  some ((g0, res) :: gbs2, usedF2, warns ++ warnsF2)) =
              some (gbs, usedF, warnsF) := h
          cases hrest : classifyAll S eps uni rest used' with
          | none =>
              rw [hrest] at h2
              cases h2
          | some st2 =>
              obtain ⟨gbs2, usedF2, warnsF2⟩ := st2
              rw [hrest] at h2
              injection h2 with h2
              cases h2
              intro j v u hj hca
              rcases List.mem_cons.mp hm with heq | hm
              · have hNP : NP0 = NP := by
                  injection heq with h1 h2
                  exact h2.symm
                have hj0 : NP0.get? j = some v := by
                  rw [hNP]
                  exact hj
                exact classifyAll_used_mono S eps uni rest used' _ _ _ hrest u
                  (classifyGo_used_of_outcome S eps g0 uni NP0 0 _ _ _ _ _ _ hgb
                    j v u hj0 hca)
              · exact classifyAll_used_of_outcome S eps uni rest used' _ _ _ hrest
                  g NP hm j v u hj hca

/-- With distinct sample identifiers, looking a sample up in the
per-GB classification results returns that sample's own result, and
its per-GB `used` flags feed the final set. -/
theorem classifyAll_lookup (S : α → α → ℚ) (eps : ℚ) (uni : List (RepId × α)) :
    ∀ (samples : List (String × List α)) (used : List RepId)
      (gbs : List (String × List (RepId × List RepId))) (usedF warnsF : List RepId),
    (samples.map Prod.fst).Nodup →
    classifyAll S eps uni samples used = some (gbs, usedF, warnsF) →
    ∀ (g : String) (NP : List α), (g, NP) ∈ samples →
    ∃ (u0 : List RepId) (resg : List (RepId × List RepId)) (usedg warnsg : List RepId),
      classifyGB S eps g NP uni u0 = some (resg, usedg, warnsg) ∧
      gbs.lookup g = some resg
  | [], used, gbs, usedF, warnsF, _, h, g, NP, hm => absurd hm (List.not_mem_nil _)
  | (g0, NP0) :: rest, used, gbs, usedF, warnsF, hnd, h, g, NP, hm => by
      rw [classifyAll_cons] at h
      cases hgb : classifyGB S eps g0 NP0 uni used with
      | none =>
          rw [hgb] at h
          cases h
      | some st =>
          obtain ⟨res, used', warns⟩ := st
          rw [hgb] at h
          have h2 : (match classifyAll S eps uni rest used' with
              | none => none
              | some (gbs2, usedF2, warnsF2) =>
                  some ((g0, res) :: gbs2, usedF2, warns ++ warnsF2)) =
              some (gbs, usedF, warnsF) := h
          cases hrest : classifyAll S eps uni rest used' with
          | none =>
              rw [hrest] at h2
              cases h2
          | some st2 =>
              obtain ⟨gbs2, usedF2, warnsF2⟩ := st2
              rw [hrest] at h2
              injection h2 with h2
              cases h2
              rw [List.map_cons, List.nodup_cons] at hnd
              rcases List.mem_cons.mp hm with heq | hm
              · have hg : g0 = g := by
                  injection heq with h1 h2
                  exact h1.symm
                have hNP : NP0 = NP := by
                  injection heq with h1 h2
                  exact h2.symm
                subst hg
                subst hNP
                refine ⟨used, res, used', warns, hgb, ?_⟩
                simp [List.lookup]
              · obtain ⟨u0, resg, usedg, warnsg, hcg, hlook⟩ :=
                  classifyAll_lookup S eps uni rest used' _ _ _ hnd.2 hrest g NP hm
                refine ⟨u0, resg, usedg, warnsg, hcg, ?_⟩
                have hne : g ≠ g0 := by
                  intro hgg
                  apply hnd.1
                  show g0 ∈ List.map Prod.fst rest
                  rw [← hgg]
                  exact List.mem_map_of_mem Prod.fst hm
                have hb : (g == g0) = false := by
                  rw [beq_eq_false_iff_ne]
                  exact hne
                simp only [List.lookup, hb]
                exact hlook

/-! ## Distinctness of catalogue keys -/

/-- Unfolding lemma for one `uniquifyPassGo` step. -/
theorem uniquifyPassGo_cons (S : α → α → ℚ) (eps : ℚ) (g : String) (i : Nat)
    (v : α) (vs : List α) (uni : List (RepId × α)) :
    uniquifyPassGo S eps g i (v :: vs) uni =
      uniquifyPassGo S eps g (i + 1) vs
        (if uni.any (fun u => decide (S v u.2 < eps)) then uni
         else uni ++ [((g, i), v)]) := rfl

/-- The entries appended by `_uniquify` over one GB carry that GB's
identifier, indices at least the start index, and distinct keys. -/
theorem uniquifyPassGo_keys (S : α → α → ℚ) (eps : ℚ) (g : String) :
    ∀ (NP : List α) (i : Nat) (uni : List (RepId × α)),
    ∃ ext, uniquifyPassGo S eps g i NP uni = uni ++ ext ∧
      (∀ e ∈ ext, e.1.1 = g ∧ i ≤ e.1.2) ∧ (ext.map Prod.fst).Nodup
  | [], _, uni => ⟨[], by simp [uniquifyPassGo], by simp, by simp⟩
  | v :: vs, i, uni => by
      rw [uniquifyPassGo_cons]
      by_cases hc : uni.any (fun u => decide (S v u.2 < eps))
      · rw [if_pos hc]
        obtain ⟨ext, h1, h2, h3⟩ := uniquifyPassGo_keys S eps g vs (i + 1) uni
        exact ⟨ext, h1,
          fun e he => ⟨(h2 e he).1, le_trans (Nat.le_succ i) (h2 e he).2⟩, h3⟩
      · rw [if_neg hc]
        obtain ⟨ext, h1, h2, h3⟩ := uniquifyPassGo_keys S eps g vs (i + 1)
          (uni ++ [((g, i), v)])
        refine ⟨((g, i), v) :: ext, ?_, ?_, ?_⟩
        · rw [h1, List.append_assoc]
          rfl
        · intro e he
          rcases List.mem_cons.mp he with heq | he
          · subst heq
            exact ⟨rfl, le_refl i⟩
          · exact ⟨(h2 e he).1, le_trans (Nat.le_succ i) (h2 e he).2⟩
        · rw [List.map_cons, List.nodup_cons]
          refine ⟨?_, h3⟩
          intro hmem
          obtain ⟨e, he, hef⟩ := List.mem_map.mp hmem
          have h4 : i + 1 ≤ i := by
            simpa [hef] using (h2 e he).2
          omega

/-- Unfolding lemma for one `extractGo` step. -/
theorem extractGo_cons (S : α → α → ℚ) (eps : ℚ) (g : String) (NP : List α)
    (rest : List (String × List α)) (uni : List (RepId × α)) :
    extractGo S eps ((g, NP) :: rest) uni =
      extractGo S eps rest (uniquifyPass S eps g NP uni) := rfl

/-- Keys of the extracted catalogue stay distinct, and their sample
identifiers come from the seed sentinel or the processed samples. -/
theorem extractGo_keys (S : α → α → ℚ) (eps : ℚ) :
    ∀ (samples : List (String × List α)) (uni : List (RepId × α)) (G : List String),
    (uni.map Prod.fst).Nodup →
    (∀ e ∈ uni, e.1.1 ∈ G) →
    (∀ g ∈ samples.map Prod.fst, g ∉ G) →
    (samples.map Prod.fst).Nodup →
    ((extractGo S eps samples uni).map Prod.fst).Nodup ∧
    (∀ e ∈ extractGo S eps samples uni, e.1.1 ∈ G ++ samples.map Prod.fst)
  | [], uni, G, h1, h2, _, _ => ⟨h1, fun e he => by simpa using h2 e he⟩
  | (g, NP) :: rest, uni, G, h1, h2, h3, h4 => by
      obtain ⟨ext, he1, he2, he3⟩ := uniquifyPassGo_keys S eps g NP 0 uni
      have hpass : uniquifyPass S eps g NP uni = uni ++ ext := he1
      have hgG : g ∉ G := h3 g (by simp)
      have hnodup : ((uni ++ ext).map Prod.fst).Nodup := by
        rw [List.map_append, List.nodup_append]
        refine ⟨h1, he3, ?_⟩
        intro a ha hb
        obtain ⟨e, he, hef⟩ := List.mem_map.mp ha
        obtain ⟨e', he', hef'⟩ := List.mem_map.mp hb
        have haG : a.1 ∈ G := by
          rw [← hef]
          exact h2 e he
        have hag : a.1 = g := by
          rw [← hef']
          exact (he2 e' he').1
        rw [hag] at haG
        exact hgG haG
      have h2' : ∀ e ∈ uni ++ ext, e.1.1 ∈ G ++ [g] := by
        intro e he
        rcases List.mem_append.mp he with he | he
        · exact List.mem_append_left _ (h2 e he)
        · exact List.mem_append_right _ (by
            rw [(he2 e he).1]
            exact List.mem_singleton.mpr rfl)
      have h3' : ∀ g' ∈ rest.map Prod.fst, g' ∉ G ++ [g] := by
        intro g' hg' hGg
        rcases List.mem_append.mp hGg with hG | hgq
        · exact h3 g' (by simp [hg']) hG
        · rw [List.map_cons, List.nodup_cons] at h4
          exact h4.1 (List.mem_singleton.mp hgq ▸ hg')
      have h4' : (rest.map Prod.fst).Nodup := by
        rw [List.map_cons, List.nodup_cons] at h4
        exact h4.2
      obtain ⟨hA, hB⟩ := extractGo_keys S eps rest (uni ++ ext) (G ++ [g])
        hnodup h2' h3' h4'
      rw [extractGo_cons, hpass]
      refine ⟨hA, ?_⟩
      intro e he
      have := hB e he
      simpa [List.append_assoc] using this

/-- The extracted catalogue has pairwise distinct keys whenever the
sample identifiers are distinct and avoid the sentinel `"0"`. -/
theorem extractAll_keys_nodup (S : α → α → ℚ) (eps : ℚ) (seed : α)
    (samples : List (String × List α))
    (hnd : (samples.map Prod.fst).Nodup) (h0 : "0" ∉ samples.map Prod.fst) :
    ((extractAll S eps seed samples).map Prod.fst).Nodup := by
  have h := extractGo_keys S eps samples [(seedKey, seed)] ["0"]
    (by simp)
    (by
      intro e he
      rcases List.mem_singleton.mp he with rfl
      simp [seedKey])
    (by
      intro g hg hG
      rcases List.mem_singleton.mp hG with rfl
      exact h0 hg)
    hnd
  exact h.1

/-! ## The LAE assignment loop and row counting -/

/-- Positions below the length are readable after `List.set`. -/
theorem getOpt_set_self : ∀ (l : List γ) (j : Nat) (a : γ), j < l.length →
    (l.set j a).get? j = some a
  | [], j, _, h => absurd h (by simp)
  | _ :: _, 0, _, _ => rfl
  | _ :: t, j + 1, a, h => getOpt_set_self t j a (Nat.lt_of_succ_lt_succ h)

/-- `List.set` leaves other positions unchanged. -/
theorem getOpt_set_ne : ∀ (l : List γ) (i j : Nat) (a : γ), i ≠ j →
    (l.set i a).get? j = l.get? j
  | [], _, _, _, _ => by simp
  | _ :: _, 0, 0, _, h => absurd rfl h
  | _ :: _, 0, _ + 1, _, _ => rfl
  | _ :: _, _ + 1, 0, _, _ => rfl
  | _ :: t, i + 1, j + 1, a, h =>
      getOpt_set_ne t i j a (fun hij => h (by rw [hij]))

/-- A readable position is below the length. -/
theorem lt_length_of_getOpt : ∀ (l : List γ) (j : Nat) (a : γ),
    l.get? j = some a → j < l.length
  | [], _, _, h => by cases h
  | _ :: _, 0, _, _ => Nat.succ_pos _
  | _ :: t, j + 1, a, h => Nat.succ_lt_succ (lt_length_of_getOpt t j a h)

/-- Members of `l.set n b` are members of `l` or equal to `b`. -/
theorem mem_set_cases : ∀ (l : List γ) (n : Nat) (b a : γ),
    a ∈ l.set n b → a ∈ l ∨ a = b
  | [], _, _, _, h => Or.inl h
  | x :: t, 0, b, a, h => by
      rcases List.mem_cons.mp h with heq | h
      · exact Or.inr heq
      · exact Or.inl (List.mem_cons_of_mem x h)
  | x :: t, n + 1, b, a, h => by
      rcases List.mem_cons.mp h with heq | h
      · exact Or.inl (heq ▸ List.mem_cons_self x t)
      · rcases mem_set_cases t n b a h with h | h
        · exact Or.inl (List.mem_cons_of_mem x h)
        · exact Or.inr h

/-- The inner write loop preserves length. -/
theorem setFold_length (u : RepId) : ∀ (tail : List RepId) (laes : List (Option RepId)),
    (tail.foldl (fun l pv => l.set pv.2 (some u)) laes).length = laes.length
  | [], _ => rfl
  | pv :: t, laes => by
      show (t.foldl (fun l pv => l.set pv.2 (some u)) (laes.set pv.2 (some u))).length
        = laes.length
      rw [setFold_length u t _, List.length_set]

/-- The inner write loop writes only `some u` values. -/
theorem setFold_good (P : RepId → Prop) (u : RepId) (hu : P u) :
    ∀ (tail : List RepId) (laes : List (Option RepId)),
    (∀ o ∈ laes, o = none ∨ ∃ w, o = some w ∧ P w) →
    ∀ o ∈ tail.foldl (fun l pv => l.set pv.2 (some u)) laes,
      o = none ∨ ∃ w, o = some w ∧ P w
  | [], _, hl => hl
  | pv :: t, laes, hl => by
      show ∀ o ∈ t.foldl (fun l pv => l.set pv.2 (some u)) (laes.set pv.2 (some u)), _
      refine setFold_good P u hu t _ ?_
      intro o ho
      rcases mem_set_cases laes pv.2 (some u) o ho with ho | rfl
      · exact hl o ho
      · exact Or.inr ⟨u, rfl, hu⟩

/-- A filled slot stays filled through the inner write loop. -/
theorem setFold_slot_keep (u : RepId) :
    ∀ (tail : List RepId) (laes : List (Option RepId)) (j : Nat) (w : RepId),
    laes.get? j = some (some w) →
    ∃ w', (tail.foldl (fun l pv => l.set pv.2 (some u)) laes).get? j = some (some w')
  | [], _, _, w, h => ⟨w, h⟩
  | pv :: t, laes, j, w, h => by
      show ∃ w', (t.foldl (fun l pv => l.set pv.2 (some u))
        (laes.set pv.2 (some u))).get? j = some (some w')
      by_cases hj : pv.2 = j
      · refine setFold_slot_keep u t _ j u ?_
        rw [hj]
        exact getOpt_set_self laes j (some u) (lt_length_of_getOpt laes j (some w) h)
      · refine setFold_slot_keep u t _ j w ?_
        rw [getOpt_set_ne laes pv.2 j (some u) hj]
        exact h

/-- A slot targeted by the inner write loop gets filled. -/
theorem setFold_slot_hit (u : RepId) :
    ∀ (tail : List RepId) (laes : List (Option RepId)) (j : Nat),
    j < laes.length → (∃ pv ∈ tail, pv.2 = j) →
    ∃ w, (tail.foldl (fun l pv => l.set pv.2 (some u)) laes).get? j = some (some w)
  | [], _, _, _, hex => absurd hex (by simp)
  | pv :: t, laes, j, hlt, hex => by
      show ∃ w, (t.foldl (fun l pv => l.set pv.2 (some u))
        (laes.set pv.2 (some u))).get? j = some (some w)
      by_cases hj : pv.2 = j
      · refine setFold_slot_keep u t _ j u ?_
        rw [hj]
        exact getOpt_set_self laes j (some u) hlt
      · obtain ⟨pv', hpv', hj'⟩ := hex
        rcases List.mem_cons.mp hpv' with heq | hpv'
        · exact absurd (heq ▸ hj') hj
        · refine setFold_slot_hit u t _ j ?_ ⟨pv', hpv', hj'⟩
          rw [List.length_set]
          exact hlt

/-- The outer assignment loop preserves length. -/
theorem assignFold_length :
    ∀ (m : List (RepId × List RepId)) (laes : List (Option RepId)),
    (m.foldl (fun laes e => (e.2.drop 1).foldl
      (fun l pv => l.set pv.2 (some e.1)) laes) laes).length = laes.length
  | [], _ => rfl
  | e :: t, laes => by
      show (t.foldl _ ((e.2.drop 1).foldl (fun l pv => l.set pv.2 (some e.1)) laes)).length
        = laes.length
      rw [assignFold_length t _, setFold_length]

/-- `assignLAEs` produces a list of the sample's length. -/
theorem assignLAEs_length (n : Nat) (m : List (RepId × List RepId)) :
    (assignLAEs n m).length = n := by
  rw [assignLAEs, assignFold_length, List.length_replicate]

/-- A filled slot stays filled through the outer assignment loop. -/
theorem assignFold_keep :
    ∀ (m : List (RepId × List RepId)) (laes : List (Option RepId)) (j : Nat) (w : RepId),
    laes.get? j = some (some w) →
    ∃ w', (m.foldl (fun laes e => (e.2.drop 1).foldl
      (fun l pv => l.set pv.2 (some e.1)) laes) laes).get? j = some (some w')
  | [], _, _, w, h => ⟨w, h⟩
  | e :: t, laes, j, w, h => by
      show ∃ w', (t.foldl _ ((e.2.drop 1).foldl
        (fun l pv => l.set pv.2 (some e.1)) laes)).get? j = some (some w')
      obtain ⟨w1, hw1⟩ := setFold_slot_keep e.1 (e.2.drop 1) laes j w h
      exact assignFold_keep t _ j w1 hw1

/-- All values produced by the assignment loop are recorded pairs. -/
theorem assignFold_good (P : RepId → Prop) :
    ∀ (m : List (RepId × List RepId)) (laes : List (Option RepId)),
    (∀ u x, tailMem m u x → P u) →
    (∀ o ∈ laes, o = none ∨ ∃ w, o = some w ∧ P w) →
    ∀ o ∈ m.foldl (fun laes e => (e.2.drop 1).foldl
      (fun l pv => l.set pv.2 (some e.1)) laes) laes,
      o = none ∨ ∃ w, o = some w ∧ P w
  | [], _, _, hl => hl
  | e :: t, laes, hP, hl => by
      show ∀ o ∈ t.foldl _ ((e.2.drop 1).foldl
        (fun l pv => l.set pv.2 (some e.1)) laes), _
      have hPt : ∀ u x, tailMem t u x → P u := by
        intro u x hm
        obtain ⟨l, hl', hx⟩ := hm
        exact hP u x ⟨l, List.mem_cons_of_mem e hl', hx⟩
      refine assignFold_good P t _ hPt ?_
      cases hdrop : e.2.drop 1 with
      | nil =>
          exact hl
      | cons pv0 rest =>
          have hPe : P e.1 := by
            refine hP e.1 pv0 ⟨e.2, ?_, ?_⟩
            · show (e.1, e.2) ∈ e :: t
              exact List.mem_cons_self e t
            · rw [hdrop]
              exact List.mem_cons_self pv0 rest
          rw [← hdrop]
          exact setFold_good P e.1 hPe (e.2.drop 1) laes hl

/-- Every slot named by a recorded pair gets filled. -/
theorem assignFold_slot :
    ∀ (m : List (RepId × List RepId)) (laes : List (Option RepId)) (j : Nat)
      (u x : RepId),
    tailMem m u x → x.2 = j → j < laes.length →
    ∃ w, (m.foldl (fun laes e => (e.2.drop 1).foldl
      (fun l pv => l.set pv.2 (some e.1)) laes) laes).get? j = some (some w)
  | [], _, _, u, x, hm, _, _ => by
      obtain ⟨l, hl, _⟩ := hm
      cases hl
  | e :: t, laes, j, u, x, hm, hxj, hlt => by
      show ∃ w, (t.foldl _ ((e.2.drop 1).foldl
        (fun l pv => l.set pv.2 (some e.1)) laes)).get? j = some (some w)
      obtain ⟨l, hl, hx⟩ := hm
      rcases List.mem_cons.mp hl with heq | hl
      · have hx' : x ∈ e.2.drop 1 := by
          rw [← heq]
          exact hx
        obtain ⟨w, hw⟩ := setFold_slot_hit e.1 (e.2.drop 1) laes j hlt ⟨x, hx', hxj⟩
        exact assignFold_keep t _ j w hw
      · refine assignFold_slot t _ j u x ⟨l, hl, hx⟩ hxj ?_
        rw [setFold_length]
        exact hlt

/-- Indicator sum over a list not containing the key is zero. -/
theorem indicator_sum_zero (u0 : RepId) :
    ∀ (keys : List RepId), u0 ∉ keys →
    (keys.map (fun u => if u0 = u then (1 : Nat) else 0)).sum = 0
  | [], _ => rfl
  | k :: t, h => by
      have hne : ¬ (u0 = k) := by
        intro he
        rw [he] at h
        exact h (List.mem_cons_self k t)
      rw [List.map_cons, List.sum_cons, if_neg hne,
        indicator_sum_zero u0 t (fun hm => h (List.mem_cons_of_mem k hm))]

/-- Indicator sum over a duplicate-free list containing the key. -/
theorem indicator_sum_one (u0 : RepId) :
    ∀ (keys : List RepId), keys.Nodup → u0 ∈ keys →
    (keys.map (fun u => if u0 = u then (1 : Nat) else 0)).sum = 1
  | [], _, h => absurd h (List.not_mem_nil _)
  | k :: t, hnd, hmem => by
      rw [List.map_cons, List.sum_cons]
      rw [List.nodup_cons] at hnd
      by_cases hk : u0 = k
      · rw [if_pos hk, indicator_sum_zero u0 t (hk ▸ hnd.1)]
      · rcases List.mem_cons.mp hmem with heq | hmem
        · exact absurd heq hk
        · rw [if_neg hk, indicator_sum_one u0 t hnd.2 hmem]

/-- Map-sum distributes over pointwise addition. -/
theorem sum_map_add_nat (f g : RepId → Nat) :
    ∀ (keys : List RepId),
    (keys.map (fun u => f u + g u)).sum = (keys.map f).sum + (keys.map g).sum
  | [] => rfl
  | k :: t => by
      rw [List.map_cons, List.sum_cons, List.map_cons, List.sum_cons,
        List.map_cons, List.sum_cons, sum_map_add_nat f g t]
      omega

/-- If every element of `laes` is `some u` for a key `u` of the
duplicate-free list `keys`, the per-key counts sum to the length. -/
theorem count_sum_nat (keys : List RepId) (hnd : keys.Nodup) :
    ∀ (laes : List (Option RepId)),
    (∀ o ∈ laes, ∃ u, o = some u ∧ u ∈ keys) →
    (keys.map (fun u => laes.count (some u))).sum = laes.length
  | [], _ => by
      simp
  | o :: laes, hgood => by
      obtain ⟨u0, ho, hu0⟩ := hgood o (List.mem_cons_self o laes)
      subst ho
      have hform : ∀ u : RepId,
          (some u0 :: laes).count (some u)
            = laes.count (some u) + (if u0 = u then 1 else 0) := by
        intro u
        rw [List.count_cons]
        congr 1
        by_cases h : u0 = u
        · simp [h]
        · simp [h]
      have hmapeq : keys.map (fun u => (some u0 :: laes).count (some u))
          = keys.map (fun u => laes.count (some u) + (if u0 = u then 1 else 0)) :=
        List.map_congr_left (fun u _ => hform u)
      rw [hmapeq, sum_map_add_nat,
        count_sum_nat keys hnd laes
          (fun o ho => hgood o (List.mem_cons_of_mem _ ho)),
        indicator_sum_one u0 keys hnd hu0, List.length_cons]

/-- Sum of cast naturals is the cast of the natural sum. -/
theorem sum_map_nat_cast (f : RepId → Nat) :
    ∀ (keys : List RepId),
    (keys.map (fun u => ((f u : Nat) : ℚ))).sum = (((keys.map f).sum : Nat) : ℚ)
  | [] => by simp
  | k :: t => by
      rw [List.map_cons, List.sum_cons, List.map_cons, List.sum_cons,
        sum_map_nat_cast f t]
      push_cast
      ring

/-- The count row of a fully classified sample sums to its length. -/
theorem LERrow_sum_length (keys : List RepId) (laes : List (Option RepId))
    (hnd : keys.Nodup)
    (hgood : ∀ o ∈ laes, ∃ u, o = some u ∧ u ∈ keys) :
    (LERrow laes keys).sum = (laes.length : ℚ) := by
  rw [LERrow, sum_map_nat_cast (fun u => laes.count (some u)) keys,
    count_sum_nat keys hnd laes hgood]

/-! ## C5: exact per-sample counts -/

/-- If every sample's count row sums to its length, `lerRows` succeeds. -/
theorem lerRows_all_ok (keys : List RepId)
    (GBs : List (String × List (RepId × List RepId))) :
    ∀ (samples : List (String × List α)),
    (∀ (g : String) (NP : List α), (g, NP) ∈ samples →
      (LERrow (assignLAEs NP.length ((GBs.lookup g).getD [])) keys).sum
        = (NP.length : ℚ)) →
    ∃ M, lerRows keys GBs samples = .ok M
  | [], _ => ⟨[], rfl⟩
  | (g, NP) :: rest, hall => by
      obtain ⟨M, hM⟩ := lerRows_all_ok keys GBs rest
        (fun g' NP' hm => hall g' NP' (List.mem_cons_of_mem _ hm))
      refine ⟨(LERrow (assignLAEs NP.length ((GBs.lookup g).getD [])) keys).map
        (· / (LERrow (assignLAEs NP.length ((GBs.lookup g).getD [])) keys).sum) :: M, ?_⟩
      simp only [lerRows]
      rw [if_pos (hall g NP (List.mem_cons_self _ _)), hM]

/-- C5: after a completed `uniquify` run (with a zero-diagonal kernel,
a positive threshold and well-formed distinct sample identifiers),
every sample's per-entry counts over the finalized catalogue sum to
exactly the sample's atom count, so the `assert` in `LER` never fires
and `LER` succeeds. -/
theorem C5_counts_exact (S : α → α → ℚ) (seed : α) (eps : ℚ)
    (samples : List (String × List α)) (res : URes α)
    (hS0 : ∀ w : α, S w w = 0) (heps : 0 < eps)
    (hnd : (samples.map Prod.fst).Nodup) (h0 : "0" ∉ samples.map Prod.fst)
    (hok : uniquify S (some seed) samples eps = .ok res) :
    (∀ (g : String) (NP : List α), (g, NP) ∈ samples →
      (LERrow (assignLAEs NP.length ((res.GBs.lookup g).getD []))
        (res.U.map Prod.fst)).sum = (NP.length : ℚ)) ∧
    ∃ M, LER S (some seed) samples eps = .ok M := by
  have hok' := hok
  rw [uniquify] at hok
  cases hrc : runClassify S eps seed samples with
  | none =>
      rw [hrc] at hok
      cases hok
  | some st =>
      obtain ⟨gbs, usedF, warnsF⟩ := st
      rw [hrc] at hok
      injection hok with hok
      subst hok
      have hca : classifyAll S eps (extractAll S eps seed samples) samples []
          = some (gbs, usedF, warnsF) := hrc
      have hndUK := extractAll_keys_nodup S eps seed samples hnd h0
      have hperm : List.Perm
          (sortDesc (scoreTo S seed)
            (pruneU (extractAll S eps seed samples) usedF))
          (pruneU (extractAll S eps seed samples) usedF) := sortDesc_perm _ _
      have hpermmap := hperm.map Prod.fst
      have hndpr : ((pruneU (extractAll S eps seed samples) usedF).map Prod.fst).Nodup :=
        hndUK.sublist ((List.filter_sublist _).map Prod.fst)
      have hndkeys : ((sortDesc (scoreTo S seed)
          (pruneU (extractAll S eps seed samples) usedF)).map Prod.fst).Nodup :=
        (hpermmap.nodup_iff).mpr hndpr
      have hkeymem : ∀ u : RepId, u ∈ usedF →
          u ∈ (extractAll S eps seed samples).map Prod.fst →
          u ∈ (sortDesc (scoreTo S seed)
            (pruneU (extractAll S eps seed samples) usedF)).map Prod.fst := by
        intro u hu hUK
        obtain ⟨e, he, hef⟩ := List.mem_map.mp hUK
        have hepr : e ∈ pruneU (extractAll S eps seed samples) usedF := by
          refine List.mem_filter.mpr ⟨he, ?_⟩
          rw [decide_eq_true_eq, hef]
          exact hu
        refine hpermmap.mem_iff.mpr ?_
        rw [← hef]
        exact List.mem_map_of_mem Prod.fst hepr
      have hmain : ∀ (g : String) (NP : List α), (g, NP) ∈ samples →
          (LERrow (assignLAEs NP.length ((gbs.lookup g).getD []))
            ((sortDesc (scoreTo S seed)
              (pruneU (extractAll S eps seed samples) usedF)).map Prod.fst)).sum
            = (NP.length : ℚ) := by
        intro g NP hmem
        obtain ⟨u0, resg, usedg, warnsg, hgb, hlook⟩ :=
          classifyAll_lookup S eps (extractAll S eps seed samples) samples [] gbs
            usedF warnsF hnd hca g NP hmem
        rw [hlook, Option.getD_some]
        have hwf0 : ∀ p ∈ ([] : List (RepId × List RepId)), p.2 ≠ [] := by
          intro p hp
          cases hp
        have hchar := classifyGo_tailMem S eps g (extractAll S eps seed samples)
          NP 0 [] u0 [] resg usedg warnsg hwf0 hgb
        have hP : ∀ u x, tailMem resg u x →
            u ∈ (sortDesc (scoreTo S seed)
              (pruneU (extractAll S eps seed samples) usedF)).map Prod.fst := by
          intro u x hm
          rcases (hchar u x).mp hm with ⟨l, hl, _⟩ | ⟨j, v, hj, _, hcv⟩
          · cases hl
          · have hused : u ∈ usedF :=
              classifyAll_used_of_outcome S eps (extractAll S eps seed samples)
                samples [] gbs usedF warnsF hca g NP hmem j v u hj hcv
            obtain ⟨e, he, hef⟩ := classifyAtom_key S eps v _ u hcv
            refine hkeymem u hused ?_
            rw [← hef]
            exact List.mem_map_of_mem Prod.fst he
        have hfill : ∀ (j : Nat) (v : α), NP.get? j = some v →
            ∃ w, (assignLAEs NP.length resg).get? j = some (some w) := by
          intro j v hj
          obtain ⟨e, he, hse⟩ := extractGo_covered S eps hS0 heps samples
            [(seedKey, seed)] g NP hmem v (List.get?_mem hj)
          have hnn : classifyAtom S eps v (extractAll S eps seed samples) ≠ none :=
            classifyGo_outcome_ne_none S eps g (extractAll S eps seed samples)
              NP 0 _ _ hgb j v hj
          have hnw : classifyAtom S eps v (extractAll S eps seed samples) ≠ some none :=
            classifyAtom_ne_warn S eps v _ e he hse
          cases hcv : classifyAtom S eps v (extractAll S eps seed samples) with
          | none => exact absurd hcv hnn
          | some o =>
              cases o with
              | none => exact absurd hcv hnw
              | some u =>
                  have hpair : tailMem resg u (g, j) := by
                    refine (hchar u (g, j)).mpr (Or.inr ⟨j, v, hj, ?_, hcv⟩)
                    rw [Nat.zero_add]
                  refine assignFold_slot resg (List.replicate NP.length none) j u (g, j)
                    hpair rfl ?_
                  rw [List.length_replicate]
                  exact lt_length_of_getOpt NP j v hj
        have hgoodall : ∀ o ∈ assignLAEs NP.length resg,
            ∃ u, o = some u ∧ u ∈ (sortDesc (scoreTo S seed)
              (pruneU (extractAll S eps seed samples) usedF)).map Prod.fst := by
          intro o ho
          obtain ⟨j, hj⟩ := List.mem_iff_get?.mp ho
          have hjlen : j < NP.length := by
            have := lt_length_of_getOpt _ j o hj
            rw [assignLAEs_length] at this
            exact this
          have hv : NP.get? j = some (NP.get ⟨j, hjlen⟩) := List.get?_eq_get hjlen
          obtain ⟨w, hw⟩ := hfill j (NP.get ⟨j, hjlen⟩) hv
          have hgood := assignFold_good
            (fun u => u ∈ (sortDesc (scoreTo S seed)
              (pruneU (extractAll S eps seed samples) usedF)).map Prod.fst)
            resg (List.replicate NP.length none) hP
            (by
              intro o' ho'
              have := List.eq_of_mem_replicate ho'
              exact Or.inl this)
            o ho
          rcases hgood with hnone | hsome
          · rw [hj] at hw
            rw [hnone] at hw
            injection hw with hw
            cases hw
          · obtain ⟨u, hou, hu⟩ := hsome
            exact ⟨u, hou, hu⟩
        rw [LERrow_sum_length _ _ hndkeys hgoodall, assignLAEs_length]
      refine ⟨hmain, ?_⟩
      obtain ⟨M, hM⟩ := lerRows_all_ok
        ((sortDesc (scoreTo S seed)
          (pruneU (extractAll S eps seed samples) usedF)).map Prod.fst) gbs
        samples hmain
      refine ⟨M, ?_⟩
      rw [LER, hok']
      exact hM

/-- Witness for C5: one atom far from the seed; the count row over the
surviving catalogue sums to the atom count `1`, and `LER` succeeds. -/
theorem C5_counts_exact_witness :
    (LERrow (assignLAEs 1 [(seedKey, [seedKey]), (("A", 0), [("A", 0), ("A", 0)])])
      [(("A" : String), (0 : Nat))]).sum = ((1 : Nat) : ℚ) ∧
    ∃ M, LER boolKernel (some false) [("A", [true])] (mkRat 1 2) = .ok M := by
  have hok : uniquify boolKernel (some false) [("A", [true])] (mkRat 1 2) =
      .ok ⟨[((("A", 0) : RepId), true)],
           [("A", [(seedKey, [seedKey]), (("A", 0), [("A", 0), ("A", 0)])])], []⟩ := by
    decide
  have h := C5_counts_exact boolKernel false (mkRat 1 2) [("A", [true])] _
    (by decide) (by decide) (by decide) (by decide) hok
  refine ⟨?_, h.2⟩
  exact h.1 "A" [true] (List.mem_singleton.mpr rfl)

/-! ## C6: presence of the seed entry -/

/-- Once the scan state reaches `(0, some k)` it never changes again,
for a non-negative kernel. -/
theorem bestGo_zero (S : α → α → ℚ) (eps : ℚ) (v : α) :
    ∀ (l : List (RepId × α)) (k : RepId), (∀ e ∈ l, 0 ≤ S v e.2) →
    bestGo S eps v l (0, some k) = (0, some k)
  | [], _, _ => rfl
  | e :: t, k, hnn => by
      rw [bestGo_cons]
      have hc : ¬ (S v e.2 < eps ∧ S v e.2 < (0, some k).1) := by
        rintro ⟨_, hlt⟩
        exact absurd hlt (not_lt.mpr (hnn e (List.mem_cons_self e t)))
      rw [if_neg hc]
      exact bestGo_zero S eps v t k (fun e' he' => hnn e' (List.mem_cons_of_mem _ he'))

/-- A row at dissimilarity `0` from the first catalogue entry is
assigned to that entry (for a non-negative kernel and `0 < eps`). -/
theorem classifyAtom_first_zero (S : α → α → ℚ) (eps : ℚ) (v : α)
    (k0 : RepId) (w : α) (rest : List (RepId × α))
    (hS : S v w = 0) (hnn : ∀ e ∈ rest, 0 ≤ S v e.2) (heps : 0 < eps) :
    classifyAtom S eps v ((k0, w) :: rest) = some (some k0) := by
  have hbm : bestMatch S eps v ((k0, w) :: rest) = (0, some k0) := by
    rw [bestMatch, bestGo_cons]
    have h1 : S v w < eps := by
      rw [hS]
      exact heps
    have h2 : S v w < 1 := by
      rw [hS]
      exact zero_lt_one
    rw [if_pos ⟨h1, h2⟩]
    show bestGo S eps v rest (S v w, some k0) = (0, some k0)
    rw [hS]
    exact bestGo_zero S eps v rest k0 hnn
  rw [classifyAtom, hbm]
  show (if (0 : ℚ) < eps then (some (some k0) : Option (Option RepId)) else some none)
    = some (some k0)
  rw [if_pos heps]

/-- C6 (amended): whenever some sample contains an atom identical to
the seed vector (kernel zero-diagonal and non-negative, threshold
positive), a completed `uniquify` run keeps the sentinel seed
identifier in the finalized catalogue, which in particular is
non-empty.  Without such an atom the seed entry can be pruned (see the
counterexample). -/
theorem C6_seed_presence (S : α → α → ℚ) (seed : α) (eps : ℚ)
    (samples : List (String × List α)) (res : URes α)
    (hS0 : ∀ w : α, S w w = 0)
    (hnn : ∀ v w : α, 0 ≤ S v w)
    (heps : 0 < eps)
    (hatom : ∃ p ∈ samples, seed ∈ p.2)
    (hok : uniquify S (some seed) samples eps = .ok res) :
    seedKey ∈ res.U.map Prod.fst ∧ res.U ≠ [] := by
  rw [uniquify] at hok
  cases hrc : runClassify S eps seed samples with
  | none =>
      rw [hrc] at hok
      cases hok
  | some st =>
      obtain ⟨gbs, usedF, warnsF⟩ := st
      rw [hrc] at hok
      injection hok with hok
      subst hok
      have hca : classifyAll S eps (extractAll S eps seed samples) samples []
          = some (gbs, usedF, warnsF) := hrc
      obtain ⟨p, hmem, hv⟩ := hatom
      obtain ⟨g, NP⟩ := p
      obtain ⟨j, hj⟩ := List.mem_iff_get?.mp hv
      obtain ⟨ext, hext⟩ := extractGo_append S eps samples [(seedKey, seed)]
      have hUK : extractAll S eps seed samples = (seedKey, seed) :: ext := hext
      have hcaatom : classifyAtom S eps seed (extractAll S eps seed samples)
          = some (some seedKey) := by
        rw [hUK]
        refine classifyAtom_first_zero S eps seed seedKey seed ext (hS0 seed)
          (fun e _ => hnn seed e.2) heps
      have hused : seedKey ∈ usedF :=
        classifyAll_used_of_outcome S eps (extractAll S eps seed samples) samples []
          gbs usedF warnsF hca g NP hmem j seed seedKey hj hcaatom
      have hseedUK : (seedKey, seed) ∈ extractAll S eps seed samples := by
        rw [hUK]
        exact List.mem_cons_self _ _
      have hseedpr : (seedKey, seed) ∈ pruneU (extractAll S eps seed samples) usedF := by
        refine List.mem_filter.mpr ⟨hseedUK, ?_⟩
        rw [decide_eq_true_eq]
        exact hused
      have hperm := (sortDesc_perm (scoreTo S seed)
        (pruneU (extractAll S eps seed samples) usedF)).map Prod.fst
      have hmemkey : seedKey ∈ (sortDesc (scoreTo S seed)
          (pruneU (extractAll S eps seed samples) usedF)).map Prod.fst :=
        hperm.mem_iff.mpr (List.mem_map_of_mem Prod.fst hseedpr)
      refine ⟨hmemkey, ?_⟩
      intro hempty
      have hempty' : sortDesc (scoreTo S seed)
          (pruneU (extractAll S eps seed samples) usedF) = [] := hempty
      rw [hempty'] at hmemkey
      cases hmemkey

/-- Witness for C6: the single atom equals the seed, so the seed entry
survives and the catalogue is the non-empty `[(("0",0), seed)]`. -/
theorem C6_seed_presence_witness :
    seedKey ∈ [seedKey] ∧ ([(seedKey, false)] : List (RepId × Bool)) ≠ [] := by
  have hok : uniquify boolKernel (some false) [("A", [false])] (mkRat 1 2) =
      .ok ⟨[(seedKey, false)], [("A", [(seedKey, [seedKey, ("A", 0)])])], []⟩ := by
    decide
  have h := C6_seed_presence boolKernel false (mkRat 1 2) [("A", [false])] _
    (by decide) (by decide) (by decide)
    ⟨("A", [false]), List.mem_singleton.mpr rfl, List.mem_singleton.mpr rfl⟩ hok
  exact h

/-! ## C9: threshold congruence -/

/-- First-pass congruence: two thresholds not separated by any kernel
value drive `_uniquify` identically over one GB. -/
theorem uniquifyPassGo_congr (S : α → α → ℚ) (eps1 eps2 : ℚ) (g : String)
    (hiff : ∀ v w : α, S v w < eps1 ↔ S v w < eps2) :
    ∀ (vs : List α) (i : Nat) (uni : List (RepId × α)),
    uniquifyPassGo S eps1 g i vs uni = uniquifyPassGo S eps2 g i vs uni
  | [], _, _ => rfl
  | v :: vs, i, uni => by
      rw [uniquifyPassGo_cons, uniquifyPassGo_cons]
      have hfun : (fun u : RepId × α => decide (S v u.2 < eps1))
          = (fun u : RepId × α => decide (S v u.2 < eps2)) :=
        funext fun u => decide_eq_decide.mpr (hiff v u.2)
      rw [hfun]
      exact uniquifyPassGo_congr S eps1 eps2 g hiff vs (i + 1) _

/-- Extraction congruence across all samples. -/
theorem extractGo_congr (S : α → α → ℚ) (eps1 eps2 : ℚ)
    (hiff : ∀ v w : α, S v w < eps1 ↔ S v w < eps2) :
    ∀ (samples : List (String × List α)) (uni : List (RepId × α)),
    extractGo S eps1 samples uni = extractGo S eps2 samples uni
  | [], _ => rfl
  | (g, NP) :: rest, uni => by
      rw [extractGo_cons, extractGo_cons]
      have hpass : uniquifyPass S eps1 g NP uni = uniquifyPass S eps2 g NP uni :=
        uniquifyPassGo_congr S eps1 eps2 g hiff NP 0 uni
      rw [hpass]
      exact extractGo_congr S eps1 eps2 hiff rest _

/-- Scan congruence for `_classify`'s inner loop. -/
theorem bestGo_congr (S : α → α → ℚ) (eps1 eps2 : ℚ) (v : α)
    (hiff : ∀ v w : α, S v w < eps1 ↔ S v w < eps2) :
    ∀ (l : List (RepId × α)) (st : ℚ × Option RepId),
    bestGo S eps1 v l st = bestGo S eps2 v l st
  | [], _ => rfl
  | e :: t, st => by
      rw [bestGo_cons, bestGo_cons]
      by_cases hc : S v e.2 < eps1 ∧ S v e.2 < st.1
      · rw [if_pos hc, if_pos ⟨(hiff v e.2).mp hc.1, hc.2⟩]
        exact bestGo_congr S eps1 eps2 v hiff t _
      · rw [if_neg hc, if_neg (fun hc2 => hc ⟨(hiff v e.2).mpr hc2.1, hc2.2⟩)]
        exact bestGo_congr S eps1 eps2 v hiff t st

/-- The tracked minimum after the scan is the initial one or an actual
kernel value of a scanned entry. -/
theorem bestGo_fst_cases (S : α → α → ℚ) (eps : ℚ) (v : α) :
    ∀ (l : List (RepId × α)) (st : ℚ × Option RepId),
    (bestGo S eps v l st).1 = st.1 ∨ ∃ e ∈ l, (bestGo S eps v l st).1 = S v e.2
  | [], _ => Or.inl rfl
  | e :: t, st => by
      rw [bestGo_cons]
      by_cases hc : S v e.2 < eps ∧ S v e.2 < st.1
      · rw [if_pos hc]
        rcases bestGo_fst_cases S eps v t (S v e.2, some e.1) with h | ⟨e', he', h⟩
        · exact Or.inr ⟨e, List.mem_cons_self e t, h⟩
        · exact Or.inr ⟨e', List.mem_cons_of_mem e he', h⟩
      · rw [if_neg hc]
        rcases bestGo_fst_cases S eps v t st with h | ⟨e', he', h⟩
        · exact Or.inl h
        · exact Or.inr ⟨e', List.mem_cons_of_mem e he', h⟩

/-- Per-row congruence: for thresholds at most `1` that no kernel
value separates, `_classify` takes the same branch for every row. -/
theorem classifyAtom_congr (S : α → α → ℚ) (eps1 eps2 : ℚ) (v : α)
    (uni : List (RepId × α)) (h1le : eps1 ≤ 1) (h2le : eps2 ≤ 1)
    (hiff : ∀ v w : α, S v w < eps1 ↔ S v w < eps2) :
    classifyAtom S eps1 v uni = classifyAtom S eps2 v uni := by
  rw [classifyAtom, classifyAtom, bestMatch, bestMatch,
    ← bestGo_congr S eps1 eps2 v hiff uni (1, none)]
  rcases hbg : bestGo S eps1 v uni (1, none) with ⟨K0, U0⟩
  show (if K0 < eps1 then (match U0 with
          | some u => some (some u) | none => none) else some none)
    = (if K0 < eps2 then (match U0 with
          | some u => some (some u) | none => none) else some none)
  have hguard : K0 < eps1 ↔ K0 < eps2 := by
    rcases bestGo_fst_cases S eps1 v uni (1, none) with h | ⟨e, _, h⟩
    · rw [hbg] at h
      have h' : K0 = 1 := h
      rw [h']
      exact iff_of_false (not_lt.mpr h1le) (not_lt.mpr h2le)
    · rw [hbg] at h
      have h' : K0 = S v e.2 := h
      rw [h']
      exact hiff v e.2
  exact if_congr hguard rfl rfl

/-- One-GB classification congruence. -/
theorem classifyGo_congr (S : α → α → ℚ) (eps1 eps2 : ℚ) (PID : String)
    (uni : List (RepId × α)) (h1le : eps1 ≤ 1) (h2le : eps2 ≤ 1)
    (hiff : ∀ v w : α, S v w < eps1 ↔ S v w < eps2) :
    ∀ (vs : List α) (i : Nat) (res : List (RepId × List RepId))
      (used warns : List RepId),
    classifyGo S eps1 PID uni i vs (res, used, warns)
      = classifyGo S eps2 PID uni i vs (res, used, warns)
  | [], _, _, _, _ => rfl
  | v :: vs, i, res, used, warns => by
      rw [classifyGo_cons, classifyGo_cons,
        classifyAtom_congr S eps1 eps2 v uni h1le h2le hiff]
      cases hca : classifyAtom S eps2 v uni with
      | none => rfl
      | some o =>
          cases o with
          | none =>
              exact classifyGo_congr S eps1 eps2 PID uni h1le h2le hiff vs (i + 1) _ _ _
          | some u =>
              exact classifyGo_congr S eps1 eps2 PID uni h1le h2le hiff vs (i + 1) _ _ _

/-- Whole-collection classification congruence. -/
theorem classifyAll_congr (S : α → α → ℚ) (eps1 eps2 : ℚ)
    (uni : List (RepId × α)) (h1le : eps1 ≤ 1) (h2le : eps2 ≤ 1)
    (hiff : ∀ v w : α, S v w < eps1 ↔ S v w < eps2) :
    ∀ (samples : List (String × List α)) (used : List RepId),
    classifyAll S eps1 uni samples used = classifyAll S eps2 uni samples used
  | [], _ => rfl
  | (g, NP) :: rest, used => by
      rw [classifyAll_cons, classifyAll_cons]
      have hgb : classifyGB S eps1 g NP uni used = classifyGB S eps2 g NP uni used :=
        classifyGo_congr S eps1 eps2 g uni h1le h2le hiff NP 0 [] used []
      rw [hgb]
      cases hgo : classifyGB S eps2 g NP uni used with
      | none => rfl
      | some st =>
          obtain ⟨res, used', warns⟩ := st
          have hrec : classifyAll S eps1 uni rest used'
              = classifyAll S eps2 uni rest used' :=
            classifyAll_congr S eps1 eps2 uni h1le h2le hiff rest used'
          show (match classifyAll S eps1 uni rest used' with
              | none => none
              | some (gbs, usedF, warnsF) => some ((g, res) :: gbs, usedF, warns ++ warnsF))
            = (match classifyAll S eps2 uni rest used' with
              | none => none
              | some (gbs, usedF, warnsF) => some ((g, res) :: gbs, usedF, warns ++ warnsF))
          rw [hrec]

/-- C9 (amended): the surviving-catalogue count is not antitone in the
threshold in general (see the counterexample); it is antitone — indeed
the two runs coincide entirely — for thresholds
`0 < eps1 ≤ eps2 ≤ 1` such that no kernel value lies in
`[eps1, eps2)`. -/
theorem C9_threshold_congruence (S : α → α → ℚ) (seed? : Option α)
    (samples : List (String × List α)) (eps1 eps2 : ℚ)
    (h0 : 0 < eps1) (h12 : eps1 ≤ eps2) (h21 : eps2 ≤ 1)
    (hsep : ∀ v w : α, ¬ (eps1 ≤ S v w ∧ S v w < eps2)) :
    uniquify S seed? samples eps1 = uniquify S seed? samples eps2 ∧
    ∀ res1 res2 : URes α, uniquify S seed? samples eps1 = .ok res1 →
      uniquify S seed? samples eps2 = .ok res2 →
      res2.U.length ≤ res1.U.length := by
  have hiff : ∀ v w : α, S v w < eps1 ↔ S v w < eps2 := by
    intro v w
    constructor
    · intro h
      exact lt_of_lt_of_le h h12
    · intro h
      by_contra hnot
      exact hsep v w ⟨not_lt.mp hnot, h⟩
  have h1le : eps1 ≤ 1 := le_trans h12 h21
  have hcong : uniquify S seed? samples eps1 = uniquify S seed? samples eps2 := by
    cases seed? with
    | none => rfl
    | some seed =>
        have hext : extractAll S eps1 seed samples = extractAll S eps2 seed samples :=
          extractGo_congr S eps1 eps2 hiff samples [(seedKey, seed)]
        have hrc : runClassify S eps1 seed samples = runClassify S eps2 seed samples := by
          rw [runClassify, runClassify, hext]
          exact classifyAll_congr S eps1 eps2 _ h1le h21 hiff samples []
        rw [uniquify, uniquify, hrc]
        cases hr : runClassify S eps2 seed samples with
        | none => rfl
        | some st =>
            obtain ⟨gbs, used, warns⟩ := st
            rw [hext]
  refine ⟨hcong, ?_⟩
  intro res1 res2 hr1 hr2
  rw [hcong] at hr1
  rw [hr1] at hr2
  injection hr2 with h
  rw [h]

/-- Witness for C9: the Boolean kernel takes only values `0` and `1`,
so no kernel value separates `1/2` from `3/4` and the two runs agree. -/
theorem C9_threshold_congruence_witness :
    uniquify boolKernel (some false) [("A", [true])] (mkRat 1 2)
      = uniquify boolKernel (some false) [("A", [true])] (mkRat 3 4) :=
  (C9_threshold_congruence boolKernel (some false) [("A", [true])]
    (mkRat 1 2) (mkRat 3 4) (by decide) (by decide) (by decide) (by decide)).1
